import Mathlib

/-!
Verification development for the moment-recur-ts recurrence engine.

The development shallowly embeds the library's current source
(src/interval.ts, src/calendar.ts, src/rule.ts, src/recur.ts) together
with the small civil-calendar contract it consumes from moment
(day-of-week, week-of-year for the default locale with dow=0/doy=6,
month arithmetic with day clamping, start-of/end-of period, and the
diff operation).  All dates are modelled at day precision (the library
normalizes every boundary date with dateOnly(), and forward enumeration
only ever produces midnight moments).  Fractional diff results are kept
as exact unreduced fractions; JavaScript floats are idealized as exact
rationals.  Unbounded while-loops of the source are given explicit fuel
parameters; running out of fuel is reported through the same error
channel as the source's RangeError.
-/

namespace MomentRecur

/-- Unreduced fraction with positive denominator, standing in for the
JavaScript numbers produced by moment's diff operation. -/
structure Frac where
  num : Int
  den : Int
deriving DecidableEq, Repr

/-- Embed an integer as a fraction. -/
def Frac.ofInt (n : Int) : Frac := ⟨n, 1⟩

/-- Negation of a fraction. -/
def Frac.neg (q : Frac) : Frac := ⟨-q.num, q.den⟩

/-- Absolute value (JavaScript Math.abs). -/
def Frac.abs (q : Frac) : Frac := ⟨|q.num|, |q.den|⟩

/-- The test `(q % u) === 0` of JavaScript for an integer unit u: the
remainder of truncating division is zero exactly when q is an integral
multiple of u. -/
def Frac.jsModZero (q : Frac) (u : Int) : Bool :=
  q.num % (u * q.den) == 0

/-- Floor of a fraction (denominator positive in all uses). -/
def Frac.floor (q : Frac) : Int := q.num / q.den

/-- Calendar date at day precision: astronomical year, month 0-11 as in
moment, day of month 1-based. -/
structure CivilDate where
  year : Int
  month : Int
  day : Int
deriving DecidableEq, Repr

/-- Gregorian leap-year predicate. -/
def isLeap (y : Int) : Bool :=
  (y % 4 == 0 && y % 100 != 0) || y % 400 == 0

/-- Number of days in a month (month 0-11). -/
def daysInMonth (y m : Int) : Int :=
  if m = 1 then (if isLeap y then 29 else 28)
  else if m = 3 ∨ m = 5 ∨ m = 8 ∨ m = 10 then 30
  else 31

/-- Cumulative days before a month in a non-leap year (month 0-11). -/
def monthTable (m : Int) : Int :=
  if m ≤ 0 then 0 else if m = 1 then 31 else if m = 2 then 59
  else if m = 3 then 90 else if m = 4 then 120 else if m = 5 then 151
  else if m = 6 then 181 else if m = 7 then 212 else if m = 8 then 243
  else if m = 9 then 273 else if m = 10 then 304 else 334

/-- Number of leap years k with 0 ≤ k < y (negative for negative y),
chosen so that dayNumber is exactly translation-equivariant. -/
def leapsBefore (y : Int) : Int :=
  (y + 3) / 4 - (y + 99) / 100 + (y + 399) / 400

/-- Rata-die style day number: 0000-01-01 is day 0; 1970-01-01 is day
719528.  Moment timestamp comparison and subtraction at day precision
are exactly comparison and subtraction of day numbers. -/
def dayNumber (d : CivilDate) : Int :=
  365 * d.year + leapsBefore d.year + monthTable d.month
    + (if 2 ≤ d.month ∧ isLeap d.year then 1 else 0) + (d.day - 1)

/-- A structurally valid calendar date. -/
def CivilDate.isValid (d : CivilDate) : Bool :=
  0 ≤ d.month && d.month ≤ 11 && 1 ≤ d.day && d.day ≤ daysInMonth d.year d.month

/-- Day of week, 0 = Sunday .. 6 = Saturday (moment default locale). -/
def dow (d : CivilDate) : Int := (dayNumber d + 6) % 7

/-- Successor day with month/year carry. -/
def succDay (d : CivilDate) : CivilDate :=
  if d.day < daysInMonth d.year d.month then ⟨d.year, d.month, d.day + 1⟩
  else if d.month < 11 then ⟨d.year, d.month + 1, 1⟩
  else ⟨d.year + 1, 0, 1⟩

/-- Predecessor day with month/year borrow. -/
def predDay (d : CivilDate) : CivilDate :=
  if 1 < d.day then ⟨d.year, d.month, d.day - 1⟩
  else if 0 < d.month then ⟨d.year, d.month - 1, daysInMonth d.year (d.month - 1)⟩
  else ⟨d.year - 1, 11, 31⟩

/-- Add a (possibly negative) number of days, moment's add/subtract in
the day unit. -/
def addDays (d : CivilDate) (n : Int) : CivilDate :=
  if 0 ≤ n then succDay^[n.toNat] d else predDay^[(-n).toNat] d

/-- Index of a month on the absolute month axis. -/
def monthIndex (d : CivilDate) : Int := 12 * d.year + d.month

/-- Add months with moment's day-of-month clamping. -/
def addMonths (d : CivilDate) (n : Int) : CivilDate :=
  let t := monthIndex d + n
  let y := t / 12
  let m := t % 12
  ⟨y, m, min d.day (daysInMonth y m)⟩

/-- Add years; moment clamps Feb 29 to Feb 28 exactly as adding 12n
months does. -/
def addYears (d : CivilDate) (n : Int) : CivilDate := addMonths d (12 * n)

/-- First day of the week containing d (weeks start on Sunday in the
default locale). -/
def startOfWeek (d : CivilDate) : CivilDate := addDays d (-(dow d))

/-- Last day of the week containing d (Saturday). -/
def endOfWeek (d : CivilDate) : CivilDate := addDays d (6 - dow d)

/-- First day of the month of d. -/
def startOfMonth (d : CivilDate) : CivilDate := ⟨d.year, d.month, 1⟩

/-- Last day of the month of d. -/
def endOfMonth (d : CivilDate) : CivilDate :=
  ⟨d.year, d.month, daysInMonth d.year d.month⟩

/-- First day of the year of d. -/
def startOfYear (d : CivilDate) : CivilDate := ⟨d.year, 0, 1⟩

/-- Last day of the year of d. -/
def endOfYear (d : CivilDate) : CivilDate := ⟨d.year, 11, 31⟩

/-- Day of year, 1-based. -/
def dayOfYear (d : CivilDate) : Int :=
  dayNumber d - dayNumber ⟨d.year, 0, 1⟩ + 1

/-- Days in a year. -/
def daysInYear (y : Int) : Int := if isLeap y then 366 else 365

/-- Moment's firstWeekOffset for the default locale (dow=0, doy=6, so
the first week is the week containing Jan 1): equals -dow(Jan 1). -/
def firstWeekOffset (y : Int) : Int := -(dow ⟨y, 0, 1⟩)

/-- Moment's weeksInYear for the default locale. -/
def weeksInYear (y : Int) : Int :=
  (daysInYear y - firstWeekOffset y + firstWeekOffset (y + 1)) / 7

/-- Moment's week-of-year for the default locale, with roll-over into
week 1 of the next year (no roll-under can occur with doy=6). -/
def weekOfYear (d : CivilDate) : Int :=
  let w := (dayOfYear d - firstWeekOffset d.year - 1) / 7 + 1
  if w < 1 then w + weeksInYear (d.year - 1)
  else if w > weeksInYear d.year then w - weeksInYear d.year
  else w

/-- The monthWeek plugin: whole-week difference between the start of
d's week and the start of the week of the 1st of d's month. -/
def monthWeek (d : CivilDate) : Int :=
  (dayNumber (startOfWeek d) - dayNumber (startOfWeek (startOfMonth d))) / 7

/-- The monthWeekByDay plugin: floor((date - 1) / 7). -/
def monthWeekByDay (d : CivilDate) : Int := (d.day - 1) / 7

/-- Moment day-of-week setter: add (u - day()) days. -/
def setDow (d : CivilDate) (u : Int) : CivilDate := addDays d (u - dow d)

/-- Moment date() setter with native overflow into later months. -/
def setDayOfMonth (d : CivilDate) (u : Int) : CivilDate :=
  addDays ⟨d.year, d.month, 1⟩ (u - 1)

/-- Moment month() setter with day-of-month clamping. -/
def setMonth (d : CivilDate) (u : Int) : CivilDate :=
  ⟨d.year, u, min d.day (daysInMonth d.year u)⟩

/-- Moment week() setter: add (u - week()) * 7 days. -/
def setWeek (d : CivilDate) (u : Int) : CivilDate :=
  addDays d ((u - weekOfYear d) * 7)

/-- The monthWeek(w) setter: add (w - monthWeek()) weeks. -/
def setMonthWeek (d : CivilDate) (u : Int) : CivilDate :=
  addDays d ((u - monthWeek d) * 7)

/-- The monthWeekByDay(w) setter: add (w - monthWeekByDay()) weeks. -/
def setMonthWeekByDay (d : CivilDate) (u : Int) : CivilDate :=
  addDays d ((u - monthWeekByDay d) * 7)

/-- Moment monthDiff helper, for this=a, that=b, as an exact fraction:
wholeMonthDiff plus a linear interpolation between surrounding month
anchors, negated.  The symmetry guard of moment 2.16+ is included. -/
def monthDiffCore (a b : CivilDate) : Frac :=
  let w := monthIndex b - monthIndex a
  let anchor := addMonths a w
  if dayNumber b - dayNumber anchor < 0 then
    let anchor2 := addMonths a (w - 1)
    let den := dayNumber anchor - dayNumber anchor2
    ⟨-(w * den + (dayNumber b - dayNumber anchor)), den⟩
  else
    let anchor2 := addMonths a (w + 1)
    let den := dayNumber anchor2 - dayNumber anchor
    ⟨-(w * den + (dayNumber b - dayNumber anchor)), den⟩

/-- Moment monthDiff with its symmetry guard. -/
def monthDiff (a b : CivilDate) : Frac :=
  if a.day < b.day then (monthDiffCore b a).neg else monthDiffCore a b

/-- The interval measures of src/interval.ts. -/
inductive IntervalMeasure
  | days | weeks | months | years
deriving DecidableEq, Repr

/-- Moment's a.diff(b, measure, precise) at day precision.  For days the
result is a whole number of days (absFloor is the identity there); for
weeks it is dayDiff / 7; months use monthDiff; years divide the month
difference by 12. -/
def momentDiff (a b : CivilDate) (measure : IntervalMeasure) : Frac :=
  match measure with
  | .days => Frac.ofInt (dayNumber a - dayNumber b)
  | .weeks => ⟨dayNumber a - dayNumber b, 7⟩
  | .months => monthDiff a b
  | .years =>
    let q := monthDiff a b
    ⟨q.num, q.den * 12⟩

example : dayNumber ⟨1970, 0, 1⟩ = 719528 := by decide
example : dow ⟨1970, 0, 1⟩ = 4 := by decide
example : dow ⟨2018, 1, 28⟩ = 3 := by decide
example : daysInMonth 2016 1 = 29 := by decide
example : addDays ⟨2014, 0, 1⟩ 2 = ⟨2014, 0, 3⟩ := by decide
example : addDays ⟨2014, 0, 1⟩ (-2) = ⟨2013, 11, 30⟩ := by decide
example : addMonths ⟨2014, 0, 31⟩ 1 = ⟨2014, 1, 28⟩ := by decide
example : weekOfYear ⟨2014, 0, 1⟩ = 1 := by decide
example : weekOfYear ⟨2014, 11, 28⟩ = 1 := by decide
example : weekOfYear ⟨2016, 11, 26⟩ = 53 := by decide
example : monthWeek ⟨2014, 0, 1⟩ = 0 := by decide
example : (momentDiff ⟨2013, 0, 1⟩ ⟨2013, 0, 5⟩ .days).num = -4 := by decide

theorem isLeap_iff (y : Int) :
    isLeap y = true ↔ ((y % 4 = 0 ∧ ¬ y % 100 = 0) ∨ y % 400 = 0) := by
  simp [isLeap]

theorem leapsBefore_succ (y : Int) :
    leapsBefore (y + 1) = leapsBefore y + (if isLeap y then 1 else 0) := by
  by_cases h : isLeap y = true
  · rw [if_pos h]; rw [isLeap_iff] at h; unfold leapsBefore; omega
  · rw [if_neg h]
    have h2 : ¬((y % 4 = 0 ∧ ¬ y % 100 = 0) ∨ y % 400 = 0) :=
      fun hc => h ((isLeap_iff y).mpr hc)
    unfold leapsBefore; omega

theorem daysInMonth_bounds (y m : Int) :
    28 ≤ daysInMonth y m ∧ daysInMonth y m ≤ 31 := by
  unfold daysInMonth; split
  · split <;> omega
  · split <;> omega

theorem monthTable_step (y m : Int) (h0 : 0 ≤ m) (h1 : m ≤ 10) :
    monthTable (m + 1) + (if 2 ≤ m + 1 ∧ isLeap y then 1 else 0)
      = monthTable m + (if 2 ≤ m ∧ isLeap y then 1 else 0) + daysInMonth y m := by
  by_cases hl : isLeap y = true <;>
    interval_cases m <;>
      simp [monthTable, daysInMonth, hl]

theorem dayNumber_succDay (d : CivilDate) (h : d.isValid = true) :
    dayNumber (succDay d) = dayNumber d + 1 := by
  simp only [CivilDate.isValid, Bool.and_eq_true, decide_eq_true_eq] at h
  obtain ⟨⟨⟨hm0, hm1⟩, hd1⟩, hd2⟩ := h
  unfold succDay
  split
  · simp only [dayNumber]; dsimp only; omega
  · split
    · rename_i hlt hm
      have hstep := monthTable_step d.year d.month hm0 (by omega)
      simp only [dayNumber]
      dsimp only
      omega
    · rename_i hlt hm
      have hm11 : d.month = 11 := by omega
      have hday : d.day = 31 := by
        simp only [hm11] at hlt hd2
        simp [daysInMonth] at hlt hd2
        omega
      have hy := leapsBefore_succ d.year
      simp only [dayNumber, hm11, hday]
      dsimp only
      by_cases hl : isLeap d.year = true <;>
        simp [monthTable, hl] at hy ⊢ <;> omega

theorem isValid_succDay (d : CivilDate) (h : d.isValid = true) :
    (succDay d).isValid = true := by
  simp only [CivilDate.isValid, Bool.and_eq_true, decide_eq_true_eq] at h
  obtain ⟨⟨⟨hm0, hm1⟩, hd1⟩, hd2⟩ := h
  have hb := daysInMonth_bounds d.year (d.month + 1)
  have hb2 := daysInMonth_bounds (d.year + 1) 0
  unfold succDay
  split
  · simp only [CivilDate.isValid, Bool.and_eq_true, decide_eq_true_eq]
    exact ⟨⟨⟨hm0, hm1⟩, by omega⟩, by omega⟩
  · split
    · simp only [CivilDate.isValid, Bool.and_eq_true, decide_eq_true_eq]
      exact ⟨⟨⟨by omega, by omega⟩, by omega⟩, by omega⟩
    · simp only [CivilDate.isValid, Bool.and_eq_true, decide_eq_true_eq]
      exact ⟨⟨⟨by omega, by omega⟩, by omega⟩, by omega⟩

theorem dayNumber_predDay (d : CivilDate) (h : d.isValid = true) :
    dayNumber (predDay d) = dayNumber d - 1 := by
  simp only [CivilDate.isValid, Bool.and_eq_true, decide_eq_true_eq] at h
  obtain ⟨⟨⟨hm0, hm1⟩, hd1⟩, hd2⟩ := h
  unfold predDay
  split
  · simp only [dayNumber]; dsimp only; omega
  · split
    · rename_i hlt hm
      have hday : d.day = 1 := by omega
      have hstep := monthTable_step d.year (d.month - 1) (by omega) (by omega)
      simp only [dayNumber]
      dsimp only
      have heq : d.month - 1 + 1 = d.month := by omega
      rw [heq] at hstep
      omega
    · rename_i hlt hm
      have hm0' : d.month = 0 := by omega
      have hday : d.day = 1 := by omega
      have hy := leapsBefore_succ (d.year - 1)
      have heq : d.year - 1 + 1 = d.year := by omega
      rw [heq] at hy
      simp only [dayNumber, hm0', hday]
      dsimp only
      by_cases hl : isLeap (d.year - 1) = true <;>
        simp [monthTable, hl] at hy ⊢ <;> omega

theorem isValid_predDay (d : CivilDate) (h : d.isValid = true) :
    (predDay d).isValid = true := by
  simp only [CivilDate.isValid, Bool.and_eq_true, decide_eq_true_eq] at h
  obtain ⟨⟨⟨hm0, hm1⟩, hd1⟩, hd2⟩ := h
  have hb := daysInMonth_bounds d.year (d.month - 1)
  have hb2 := daysInMonth_bounds (d.year - 1) 11
  unfold predDay
  split
  · simp only [CivilDate.isValid, Bool.and_eq_true, decide_eq_true_eq]
    exact ⟨⟨⟨hm0, hm1⟩, by omega⟩, by omega⟩
  · split
    · simp only [CivilDate.isValid, Bool.and_eq_true, decide_eq_true_eq]
      exact ⟨⟨⟨by omega, by omega⟩, by omega⟩, by omega⟩
    · simp only [CivilDate.isValid, Bool.and_eq_true, decide_eq_true_eq]
      refine ⟨⟨⟨by omega, by omega⟩, by omega⟩, ?_⟩
      simp [daysInMonth]

theorem dayNumber_succDay_iter (n : Nat) (d : CivilDate) (h : d.isValid = true) :
    dayNumber (succDay^[n] d) = dayNumber d + n ∧ (succDay^[n] d).isValid = true := by
  induction n generalizing d with
  | zero => simpa using h
  | succ k ih =>
    rw [Function.iterate_succ_apply]
    have hv := isValid_succDay d h
    have hn := dayNumber_succDay d h
    obtain ⟨ih1, ih2⟩ := ih (succDay d) hv
    constructor
    · rw [ih1, hn]; push_cast; ring
    · exact ih2

theorem dayNumber_predDay_iter (n : Nat) (d : CivilDate) (h : d.isValid = true) :
    dayNumber (predDay^[n] d) = dayNumber d - n ∧ (predDay^[n] d).isValid = true := by
  induction n generalizing d with
  | zero => simpa using h
  | succ k ih =>
    rw [Function.iterate_succ_apply]
    have hv := isValid_predDay d h
    have hn := dayNumber_predDay d h
    obtain ⟨ih1, ih2⟩ := ih (predDay d) hv
    constructor
    · rw [ih1, hn]; push_cast; ring
    · exact ih2

theorem dayNumber_addDays (d : CivilDate) (n : Int) (h : d.isValid = true) :
    dayNumber (addDays d n) = dayNumber d + n := by
  unfold addDays
  split
  · rw [(dayNumber_succDay_iter n.toNat d h).1]; omega
  · rw [(dayNumber_predDay_iter (-n).toNat d h).1]; omega

theorem isValid_addDays (d : CivilDate) (n : Int) (h : d.isValid = true) :
    (addDays d n).isValid = true := by
  unfold addDays
  split
  · exact (dayNumber_succDay_iter n.toNat d h).2
  · exact (dayNumber_predDay_iter (-n).toNat d h).2

/-- Day number of the first day of the month with absolute index t. -/
def monthStartNum (t : Int) : Int := dayNumber ⟨t / 12, t % 12, 1⟩

theorem monthIndex_addMonths (d : CivilDate) (n : Int) :
    monthIndex (addMonths d n) = monthIndex d + n := by
  unfold addMonths monthIndex; dsimp only; omega

theorem isValid_addMonths (d : CivilDate) (n : Int) (h : d.isValid = true) :
    (addMonths d n).isValid = true := by
  simp only [CivilDate.isValid, Bool.and_eq_true, decide_eq_true_eq] at h ⊢
  obtain ⟨⟨⟨hm0, hm1⟩, hd1⟩, hd2⟩ := h
  unfold addMonths
  dsimp only
  have hb := daysInMonth_bounds ((monthIndex d + n) / 12) ((monthIndex d + n) % 12)
  refine ⟨⟨⟨by omega, by omega⟩, by omega⟩, by omega⟩

theorem monthStartNum_succ (t : Int) :
    monthStartNum (t + 1) = monthStartNum t + daysInMonth (t / 12) (t % 12) := by
  by_cases hm : t % 12 = 11
  · have h1 : (t + 1) / 12 = t / 12 + 1 := by omega
    have h2 : (t + 1) % 12 = 0 := by omega
    have hy := leapsBefore_succ (t / 12)
    unfold monthStartNum
    rw [h1, h2, hm]
    by_cases hl : isLeap (t / 12) = true <;>
      simp only [dayNumber, hl, if_true, if_false] <;>
        dsimp only <;>
          simp [monthTable, daysInMonth, hl] at hy ⊢ <;> omega
  · have h1 : (t + 1) / 12 = t / 12 := by omega
    have h2 : (t + 1) % 12 = t % 12 + 1 := by omega
    have hstep := monthTable_step (t / 12) (t % 12) (by omega) (by omega)
    unfold monthStartNum
    rw [h1, h2]
    simp only [dayNumber]
    dsimp only
    omega

theorem monthStartNum_add_le (s : Int) (k : Nat) :
    monthStartNum s + 28 * k ≤ monthStartNum (s + k) := by
  induction k with
  | zero => simp
  | succ j ih =>
    have hstep := monthStartNum_succ (s + j)
    have hb := daysInMonth_bounds ((s + j) / 12) ((s + j) % 12)
    have : (s : Int) + (j + 1 : Nat) = (s + j) + 1 := by push_cast; ring
    rw [this, hstep]
    push_cast at ih ⊢
    omega

theorem monthStartNum_le (s t : Int) (h : s ≤ t) :
    monthStartNum s ≤ monthStartNum t := by
  have h1 := monthStartNum_add_le s (t - s).toNat
  have h2 : s + ((t - s).toNat : Int) = t := by omega
  rw [h2] at h1
  omega

theorem dayNumber_decomp (d : CivilDate) (h : d.isValid = true) :
    dayNumber d = monthStartNum (monthIndex d) + (d.day - 1) := by
  simp only [CivilDate.isValid, Bool.and_eq_true, decide_eq_true_eq] at h
  obtain ⟨⟨⟨hm0, hm1⟩, hd1⟩, hd2⟩ := h
  have h1 : monthIndex d / 12 = d.year := by unfold monthIndex; omega
  have h2 : monthIndex d % 12 = d.month := by unfold monthIndex; omega
  unfold monthStartNum
  rw [h1, h2]
  simp only [dayNumber]
  dsimp only
  omega

theorem dayNumber_lt_of_monthIndex_lt (d1 d2 : CivilDate)
    (h1 : d1.isValid = true) (h2 : d2.isValid = true)
    (h : monthIndex d1 < monthIndex d2) : dayNumber d1 < dayNumber d2 := by
  have e1 := dayNumber_decomp d1 h1
  have e2 := dayNumber_decomp d2 h2
  have hstep := monthStartNum_succ (monthIndex d1)
  have hd1v : d1.day ≤ daysInMonth d1.year d1.month := by
    simp only [CivilDate.isValid, Bool.and_eq_true, decide_eq_true_eq] at h1
    exact h1.2
  have hd2v : 1 ≤ d2.day := by
    simp only [CivilDate.isValid, Bool.and_eq_true, decide_eq_true_eq] at h2
    exact h2.1.2
  have hm1 : monthIndex d1 / 12 = d1.year := by
    simp only [CivilDate.isValid, Bool.and_eq_true, decide_eq_true_eq] at h1
    unfold monthIndex; omega
  have hm2 : monthIndex d1 % 12 = d1.month := by
    simp only [CivilDate.isValid, Bool.and_eq_true, decide_eq_true_eq] at h1
    unfold monthIndex; omega
  rw [hm1, hm2] at hstep
  have hle := monthStartNum_le (monthIndex d1 + 1) (monthIndex d2) (by omega)
  omega

theorem dow_lt (d : CivilDate) : 0 ≤ dow d ∧ dow d < 7 := by
  unfold dow; omega

theorem dow_addDays (d : CivilDate) (n : Int) (h : d.isValid = true) :
    dow (addDays d n) = (dow d + n) % 7 := by
  unfold dow
  rw [dayNumber_addDays d n h]
  omega

/-- The calendar measures of src/calendar.ts. -/
inductive CalendarMeasure
  | daysOfWeek | daysOfMonth | weeksOfMonth | weeksOfMonthByDay
  | weeksOfYear | monthsOfYear
deriving DecidableEq, Repr

/-- The period/range time units of src/calendar.ts. -/
inductive TimeUnits
  | day | week | month | year
deriving DecidableEq, Repr

/-- Period component of the static ranges table. -/
def Calendar.period : CalendarMeasure → TimeUnits
  | .daysOfWeek => .day
  | .daysOfMonth => .day
  | .weeksOfMonth => .week
  | .weeksOfMonthByDay => .week
  | .weeksOfYear => .week
  | .monthsOfYear => .month

/-- Range component of the static ranges table. -/
def Calendar.range : CalendarMeasure → TimeUnits
  | .daysOfWeek => .week
  | .daysOfMonth => .month
  | .weeksOfMonth => .month
  | .weeksOfMonthByDay => .month
  | .weeksOfYear => .year
  | .monthsOfYear => .year

/-- Low bound of the static ranges table. -/
def Calendar.low : CalendarMeasure → Int
  | .daysOfWeek => 0
  | .daysOfMonth => 1
  | .weeksOfMonth => 0
  | .weeksOfMonthByDay => 0
  | .weeksOfYear => 1
  | .monthsOfYear => 0

/-- High bound of the static ranges table. -/
def Calendar.high : CalendarMeasure → Int
  | .daysOfWeek => 6
  | .daysOfMonth => 31
  | .weeksOfMonth => 4
  | .weeksOfMonthByDay => 4
  | .weeksOfYear => 53
  | .monthsOfYear => 11

/-- First day of the given period/range containing d (startOf at day
precision). -/
def startOfUnit (t : TimeUnits) (d : CivilDate) : CivilDate :=
  match t with
  | .day => d
  | .week => startOfWeek d
  | .month => startOfMonth d
  | .year => startOfYear d

/-- Last day of the given period/range containing d (endOf at day
precision). -/
def endOfUnit (t : TimeUnits) (d : CivilDate) : CivilDate :=
  match t with
  | .day => d
  | .week => endOfWeek d
  | .month => endOfMonth d
  | .year => endOfYear d

/-- Map with failure propagation, left to right: the model of a
JavaScript Array.map whose callback can throw. -/
def mapExcept (f : α → Except ε β) : List α → Except ε (List β)
  | [] => .ok []
  | x :: xs => do
    let y ← f x
    let ys ← mapExcept f xs
    .ok (y :: ys)

/-- Raw rule units: a number or the literal token "last".  Day and
month names, which the source resolves through moment's locale data,
are part of the out-of-scope collaborator and not modelled. -/
inductive UnitInput
  | num (n : Int)
  | last
deriving DecidableEq, Repr

/-- Failure signals of rule construction. -/
inductive RuleError
  | invalidUnit | outOfRange | missingAnchor
deriving DecidableEq, Repr

/-- Stable ascending insertion used to model the JavaScript
sort((a, b) => a - b). -/
def insertAscInt (x : Int) : List Int → List Int
  | [] => [x]
  | y :: ys => if x ≤ y then x :: y :: ys else y :: insertAscInt x ys

/-- Stable ascending sort of integers. -/
def sortInts (l : List Int) : List Int := l.foldr insertAscInt []

/-- Calendar rule: units already normalized, plus its measure. -/
structure Calendar where
  units : List Int
  measure : CalendarMeasure
deriving DecidableEq, Repr

/-- normalizeUnits of src/calendar.ts on the modelled inputs: "last"
maps to the sentinel -1, integers must lie in the measure's domain
unless they are -1, and the result is sorted ascending. -/
def Calendar.normalizeUnits (measure : CalendarMeasure) (units : List UnitInput) :
    Except RuleError (List Int) := do
  let mapped ← mapExcept (fun uIn => do
    let u : Int := match uIn with | .last => -1 | .num n => n
    if (u < Calendar.low measure ∨ Calendar.high measure < u) ∧ u ≠ -1 then
      throw RuleError.outOfRange
    else
      pure u) units
  pure (sortInts mapped)

/-- Calendar rule constructor. -/
def Calendar.create (units : List UnitInput) (measure : CalendarMeasure) :
    Except RuleError Calendar := do
  let norm ← Calendar.normalizeUnits measure units
  pure ⟨norm, measure⟩

/-- periodUnit getter: the date field selected by the measure. -/
def Calendar.periodUnit (c : Calendar) (d : CivilDate) : Int :=
  match c.measure with
  | .daysOfWeek => dow d
  | .daysOfMonth => d.day
  | .weeksOfMonth => monthWeek d
  | .weeksOfMonthByDay => monthWeekByDay d
  | .weeksOfYear => weekOfYear d
  | .monthsOfYear => d.month

/-- periodUnit setter: the corresponding moment field setter. -/
def Calendar.periodUnitSet (c : Calendar) (d : CivilDate) (u : Int) : CivilDate :=
  match c.measure with
  | .daysOfWeek => setDow d u
  | .daysOfMonth => setDayOfMonth d u
  | .weeksOfMonth => setMonthWeek d u
  | .weeksOfMonthByDay => setMonthWeekByDay d u
  | .weeksOfYear => setWeek d u
  | .monthsOfYear => setMonth d u

/-- Calendar.match of src/calendar.ts: the field value is in the unit
list, or the first unit is the sentinel -1 and the field value equals
the field value at the end of the containing range. -/
def Calendar.match (c : Calendar) (d : CivilDate) : Bool :=
  let unit := c.periodUnit d
  if c.units.contains unit then true
  else if c.units.head? == some (-1)
      && unit == c.periodUnit (endOfUnit (Calendar.range c.measure) d) then true
  else false

/-- isLastDayOfPeriod at day precision.  For week/month/year periods
the source compares the date with endOf(period) at millisecond
precision; a midnight moment never equals the 23:59:59.999 end of its
period, so the comparison is false there.  Day periods compare a date
with itself (true), and weeksOfMonthByDay compares the week-in-month
index of adjacent days. -/
def Calendar.isLastDayOfPeriod (c : Calendar) (d : CivilDate) : Bool :=
  if c.measure = .weeksOfMonthByDay then
    monthWeekByDay d != monthWeekByDay (addDays d 1)
  else if Calendar.period c.measure = .day then true
  else false

/-- nextPeriod of src/calendar.ts: the first unit (with -1 resolved to
the field value at end-of-range) above the current field value, jumped
to directly; weeksOfYear with unit 1 falls through to the start of the
week containing the end of the year. -/
def Calendar.nextPeriod (c : Calendar) (d : CivilDate) : Option CivilDate :=
  let currentUnit := c.periodUnit d
  let mapped := c.units.map (fun u =>
    if u = -1 then c.periodUnit (endOfUnit (Calendar.range c.measure) d) else u)
  match mapped.find? (fun u => currentUnit < u) with
  | some u => some (startOfUnit (Calendar.period c.measure) (c.periodUnitSet d u))
  | none =>
    if c.measure = .weeksOfYear && c.units.contains 1 then
      some (startOfWeek (endOfYear d))
    else none

/-- incrementRange: add one range unit, then go to its start. -/
def Calendar.incrementRange (c : Calendar) (d : CivilDate) : CivilDate :=
  match Calendar.range c.measure with
  | .day => addDays d 1
  | .week => startOfWeek (addDays d 7)
  | .month => startOfMonth (addMonths d 1)
  | .year => startOfYear (addYears d 1)

/-- Failure signal of a rule's bounded search: the source's RangeError
"Recurrence Year limit exceeded".  Fuel exhaustion of the model uses
the same signal. -/
inductive SearchErr
  | exhausted
deriving DecidableEq, Repr

deriving instance DecidableEq for Except

/-- The while-loop of Calendar.next: jump within the current range or
bump the range, matching the range start, until the limit is crossed. -/
def Calendar.nextLoop (c : Calendar) (limit : CivilDate) :
    Nat → CivilDate → Except SearchErr CivilDate
  | 0, _ => .error .exhausted
  | fuel + 1, cur =>
    match c.nextPeriod cur with
    | some nd => .ok nd
    | none =>
      let cur2 := c.incrementRange cur
      if c.match cur2 then .ok cur2
      else if dayNumber limit ≤ dayNumber cur2 then .error .exhausted
      else Calendar.nextLoop c limit fuel cur2

/-- Calendar.next of src/calendar.ts: try the adjacent day within the
current period first, then the range-aware search loop. -/
def Calendar.next (c : Calendar) (fuel : Nat) (current limit : CivilDate) :
    Except SearchErr CivilDate :=
  if c.isLastDayOfPeriod current then Calendar.nextLoop c limit fuel current
  else
    let nd := addDays current 1
    if c.match nd then .ok nd else Calendar.nextLoop c limit fuel current

/-- Interval rule: units, measure, and the anchor date (named start in
the source). -/
structure Interval where
  units : List Int
  measure : IntervalMeasure
  start : CivilDate
deriving DecidableEq, Repr

/-- Unit validation of the Interval constructor in src/interval.ts:
units must be positive integers; the token "last" coerces to NaN and
fails the integer test. -/
def Interval.normalizeUnits (units : List UnitInput) :
    Except RuleError (List Int) :=
  mapExcept (fun uIn =>
    match uIn with
    | .num n => if n ≤ 0 then throw RuleError.invalidUnit else pure n
    | .last => throw RuleError.invalidUnit) units

/-- Modelled from the spec: the current three-argument Interval
constructor is not among the provided sources (src/interval.ts holds
the unit validation and match only, while Rule.factory passes the
recurrence start date as third argument).  Spec 4.1: normalization as
in the two-argument constructor, and failure with MissingAnchor when no
anchor date is supplied. -/
def Interval.create (units : List UnitInput) (measure : IntervalMeasure)
    (start : Option CivilDate) : Except RuleError Interval := do
  let norm ← Interval.normalizeUnits units
  match start with
  | none => throw RuleError.missingAnchor
  | some s => pure ⟨norm, measure, s⟩

/-- Interval.match of src/interval.ts (lines 84-98): absolute diff in
the rule's measure (precise unless the measure is days), evenly
divisible by some unit. -/
def Interval.match (iv : Interval) (date : CivilDate) : Bool :=
  let diff := (momentDiff iv.start date iv.measure).abs
  iv.units.any (fun unit => diff.jsModZero unit)

/-- Add n units of an interval measure (moment add). -/
def addMeasure (d : CivilDate) (n : Int) : IntervalMeasure → CivilDate
  | .days => addDays d n
  | .weeks => addDays d (7 * n)
  | .months => addMonths d n
  | .years => addYears d n

/-- Modelled from the spec: the current Interval.next implementation is
not among the provided sources.  Spec 4.1: "for each unit, compute the
smallest anchor-relative multiple strictly greater than the elapsed
count at current; return the earliest candidate date among all units";
the elapsed count is the same absolute diff used by match, and interval
searches ignore the limit (they always produce a candidate). -/
def Interval.next (iv : Interval) (current : CivilDate) :
    Except SearchErr CivilDate :=
  let elapsed := (momentDiff iv.start current iv.measure).abs
  let candidates := iv.units.map (fun u =>
    addMeasure iv.start (u * (Frac.floor ⟨elapsed.num, elapsed.den * u⟩ + 1)) iv.measure)
  match candidates with
  | [] => .error .exhausted
  | h :: t =>
    .ok ((h :: t).foldl (fun best c =>
      if dayNumber c < dayNumber best then c else best) h)

/-- A rule is an interval rule or a calendar rule. -/
inductive Rule
  | interval (iv : Interval)
  | calendar (c : Calendar)
deriving DecidableEq, Repr

/-- Dispatch match over the rule kind. -/
def Rule.match : Rule → CivilDate → Bool
  | .interval iv, d => iv.match d
  | .calendar c, d => c.match d

/-- Dispatch next over the rule kind. -/
def Rule.next (r : Rule) (fuel : Nat) (current limit : CivilDate) :
    Except SearchErr CivilDate :=
  match r with
  | .interval iv => iv.next current
  | .calendar c => c.next fuel current limit

example : Calendar.match ⟨[-1], .daysOfMonth⟩ ⟨2018, 1, 28⟩ = true := by decide
example : Calendar.match ⟨[-1], .daysOfMonth⟩ ⟨2018, 2, 31⟩ = true := by decide
example : Calendar.match ⟨[-1], .daysOfMonth⟩ ⟨2018, 3, 30⟩ = true := by decide
example : Calendar.match ⟨[-1], .daysOfMonth⟩ ⟨2018, 3, 29⟩ = false := by decide
example : Interval.match ⟨[2], .days, ⟨2013, 0, 1⟩⟩ ⟨2013, 0, 3⟩ = true := by decide
example : Interval.match ⟨[2], .days, ⟨2013, 0, 1⟩⟩ ⟨2013, 0, 2⟩ = false := by decide
example : Interval.match ⟨[2], .weeks, ⟨2013, 0, 1⟩⟩ ⟨2013, 0, 15⟩ = true := by decide
example : Interval.match ⟨[2], .weeks, ⟨2013, 0, 1⟩⟩ ⟨2013, 0, 14⟩ = false := by decide
example : Interval.match ⟨[2], .months, ⟨2013, 0, 31⟩⟩ ⟨2013, 2, 31⟩ = true := by decide
example : Interval.next ⟨[2], .days, ⟨2014, 0, 1⟩⟩ ⟨2014, 0, 1⟩ = .ok ⟨2014, 0, 3⟩ := by decide
example : Calendar.next ⟨[1], .monthsOfYear⟩ 5 ⟨2018, 0, 1⟩ ⟨3018, 0, 1⟩ = .ok ⟨2018, 1, 1⟩ := by decide

/-- The pluralized measure names of src/rule.ts. -/
inductive Measure
  | days | weeks | months | years
  | daysOfWeek | daysOfMonth | weeksOfMonth | weeksOfMonthByDay
  | weeksOfYear | monthsOfYear
deriving DecidableEq, Repr

/-- Embed an interval measure into the combined measure type. -/
def IntervalMeasure.toMeasure : IntervalMeasure → Measure
  | .days => .days
  | .weeks => .weeks
  | .months => .months
  | .years => .years

/-- Embed a calendar measure into the combined measure type. -/
def CalendarMeasure.toMeasure : CalendarMeasure → Measure
  | .daysOfWeek => .daysOfWeek
  | .daysOfMonth => .daysOfMonth
  | .weeksOfMonth => .weeksOfMonth
  | .weeksOfMonthByDay => .weeksOfMonthByDay
  | .weeksOfYear => .weeksOfYear
  | .monthsOfYear => .monthsOfYear

/-- Rule.factory of src/rule.ts: interval measures build an Interval
rule from the recurrence start date, calendar measures build a Calendar
rule. -/
def Rule.factory (units : List UnitInput) (measure : Measure)
    (start : Option CivilDate) : Except RuleError Rule :=
  match measure with
  | .days => Rule.interval <$> Interval.create units .days start
  | .weeks => Rule.interval <$> Interval.create units .weeks start
  | .months => Rule.interval <$> Interval.create units .months start
  | .years => Rule.interval <$> Interval.create units .years start
  | .daysOfWeek => Rule.calendar <$> Calendar.create units .daysOfWeek
  | .daysOfMonth => Rule.calendar <$> Calendar.create units .daysOfMonth
  | .weeksOfMonth => Rule.calendar <$> Calendar.create units .weeksOfMonth
  | .weeksOfMonthByDay => Rule.calendar <$> Calendar.create units .weeksOfMonthByDay
  | .weeksOfYear => Rule.calendar <$> Calendar.create units .weeksOfYear
  | .monthsOfYear => Rule.calendar <$> Calendar.create units .monthsOfYear

/-- Units of a rule, as exported by save(). -/
def Rule.unitsOf : Rule → List Int
  | .interval iv => iv.units
  | .calendar c => c.units

/-- Measure of a rule, as exported by save(). -/
def Rule.measureOf : Rule → Measure
  | .interval iv => iv.measure.toMeasure
  | .calendar c => c.measure.toMeasure

/-- One rule entry of the options record. -/
structure RuleConfig where
  units : List UnitInput
  measure : Measure
deriving DecidableEq, Repr

/-- The options record consumed and produced by the Recur object.  The
source fields start/end/rules/exceptions carry date strings; parsing
and ISO formatting of day-precision dates are mutually inverse, so the
model carries civil dates directly (endDate stands for the source field
named end). -/
structure RecurOptions where
  start : Option CivilDate := none
  endDate : Option CivilDate := none
  rules : List RuleConfig := []
  exceptions : List CivilDate := []
deriving DecidableEq, Repr

/-- The Recur object state (endDate/fromDate stand for the source
fields end/from; reversed is not carried because only the forward
enumeration is modelled, and next()/all() reset it to false). -/
structure Recur where
  start : Option CivilDate := none
  endDate : Option CivilDate := none
  fromDate : Option CivilDate := none
  rules : List Rule := []
  exceptions : List CivilDate := []
  maximumYears : Int := 1000
deriving DecidableEq, Repr

/-- The Recur constructor of src/recur.ts on an options record: start
and end are taken at day precision, rules are built through
Rule.factory against the start date, exceptions at day precision, and
the transient from date starts unset. -/
def Recur.create (opts : RecurOptions) : Except RuleError Recur := do
  let rules ← mapExcept (fun rc => Rule.factory rc.units rc.measure opts.start) opts.rules
  pure { start := opts.start, endDate := opts.endDate, rules := rules,
         exceptions := opts.exceptions, fromDate := none }

/-- save() of src/recur.ts: exports start, end, the exception dates and
the rule objects (read back as units/measure pairs); the from date is
never exported. -/
def Recur.save (r : Recur) : RecurOptions :=
  { start := r.start, endDate := r.endDate,
    exceptions := r.exceptions,
    rules := r.rules.map (fun rule =>
      ⟨rule.unitsOf.map UnitInput.num, rule.measureOf⟩) }

/-- A moment input at some time of day: the calendar date plus the
milliseconds into the day.  dateOnly() formats the date as YYYY-MM-DD
and reparses, leaving exactly the calendar date. -/
structure DateTimeInput where
  date : CivilDate
  timeMs : Nat
deriving DecidableEq, Repr

/-- The dateOnly plugin of src/index.ts on valid inputs. -/
def dateOnly (inp : DateTimeInput) : CivilDate := inp.date

/-- inRange of src/recur.ts: inside the optional start/end bounds. -/
def Recur.inRange (r : Recur) (d : CivilDate) : Bool :=
  if (match r.start with
      | some s => decide (dayNumber d < dayNumber s)
      | none => false) then false
  else if (match r.endDate with
      | some e => decide (dayNumber e < dayNumber d)
      | none => false) then false
  else true

/-- isException of src/recur.ts: moment isSame comparison against each
stored exception date. -/
def Recur.isException (r : Recur) (d : CivilDate) : Bool :=
  r.exceptions.any (fun ex => dayNumber ex == dayNumber d)

/-- matchAllRules of src/recur.ts: every rule must match. -/
def Recur.matchAllRules (r : Recur) (d : CivilDate) : Bool :=
  r.rules.all (fun rule => rule.match d)

/-- matches of src/recur.ts on valid inputs: normalize to day
precision, check bounds unless ignored, exceptions, then all rules. -/
def Recur.matches (r : Recur) (dateToMatch : DateTimeInput)
    (ignoreStartEnd : Bool) : Bool :=
  let date := dateOnly dateToMatch
  if !ignoreStartEnd && !r.inRange date then false
  else if r.isException date then false
  else if !r.matchAllRules date then false
  else true

/-- Failure signals inside findNextMatch: a rule search exhausted
(RangeError, caught by the iterator), or the TypeError produced by
indexing the empty candidate array when no rules are set (not caught). -/
inductive FindErr
  | exhausted | typeErr
deriving DecidableEq, Repr

/-- Ascending insertion by day number (the sort in findNextMatch). -/
def insertAscDate (x : CivilDate) : List CivilDate → List CivilDate
  | [] => [x]
  | y :: ys =>
    if dayNumber x ≤ dayNumber y then x :: y :: ys else y :: insertAscDate x ys

/-- Stable sort by day number, moment diff comparator. -/
def sortByDay (l : List CivilDate) : List CivilDate := l.foldr insertAscDate []

/-- The while-loop of findNextMatch: back up one day, collect each
rule's next candidate, and either converge (max equals min) or continue
from the most extreme candidate. -/
def Recur.findLoop (r : Recur) (limit : CivilDate) (searchFuel : Nat) :
    Nat → CivilDate → Except FindErr CivilDate
  | 0, _ => .error .exhausted
  | convFuel + 1, x =>
    let x1 := addDays x (-1)
    match mapExcept (fun rule => rule.next searchFuel x1 limit) r.rules with
    | .error _ => .error .exhausted
    | .ok cands =>
      match sortByDay cands with
      | [] => .error .typeErr
      | h :: t =>
        let nextD := (h :: t).getLastD h
        if dayNumber nextD == dayNumber h then .ok nextD
        else Recur.findLoop r limit searchFuel convFuel nextD

/-- findNextMatch of src/recur.ts: limit is maximumYears years past the
current cursor; the loop starts one day after the cursor (and
immediately backs up onto it). -/
def Recur.findNextMatch (r : Recur) (convFuel searchFuel : Nat)
    (currentDate : CivilDate) : Except FindErr CivilDate :=
  let limit := addYears currentDate r.maximumYears
  Recur.findLoop r limit searchFuel convFuel (addDays currentDate 1)

/-- Failure signals of beginning or advancing the enumeration.
noOrigin and rangeInverted are the two thrown preconditions; typeErr is
the uncaught TypeError of a rule-less enumeration; fuelOut marks
exhaustion of the model's yield fuel (the source would keep looping). -/
inductive IterErr
  | noOrigin | rangeInverted | missingEnd | typeErr | fuelOut
deriving DecidableEq, Repr

/-- The yield loop of the Symbol.iterator generator: advance through
findNextMatch, stop past the end bound or when a search is exhausted,
skip exception dates, and collect every date the generator yields. -/
def Recur.iterLoop (r : Recur) (convFuel searchFuel : Nat) :
    Nat → CivilDate → Except IterErr (List CivilDate)
  | 0, _ => .error .fuelOut
  | yieldFuel + 1, cur =>
    match r.findNextMatch convFuel searchFuel cur with
    | .error .typeErr => .error .typeErr
    | .error .exhausted => .ok []
    | .ok nd =>
      if (match r.endDate with
          | some e => decide (dayNumber e < dayNumber nd)
          | none => false) then .ok []
      else do
        let rest ← Recur.iterLoop r convFuel searchFuel yieldFuel nd
        if r.isException nd then pure rest else pure (nd :: rest)

/-- The Symbol.iterator generator of src/recur.ts, drained into a list:
origin is from if set, else start (noOrigin otherwise); rangeInverted
when the origin lies past the end bound; the origin itself is yielded
when it matches all rules (with no exception check); then the yield
loop runs. -/
def Recur.iterate (r : Recur) (yieldFuel convFuel searchFuel : Nat) :
    Except IterErr (List CivilDate) :=
  match (match r.fromDate with | some f => some f | none => r.start) with
  | none => .error .noOrigin
  | some startFrom =>
    if (match r.endDate with
        | some e => decide (dayNumber e < dayNumber startFrom)
        | none => false) then .error .rangeInverted
    else do
      let rest ← Recur.iterLoop r convFuel searchFuel yieldFuel startFrom
      if r.matchAllRules startFrom then pure (startFrom :: rest) else pure rest

/-- all() of src/recur.ts: requires an end date, then drains the
forward enumeration. -/
def Recur.all (r : Recur) (yieldFuel convFuel searchFuel : Nat) :
    Except IterErr (List CivilDate) :=
  match r.endDate with
  | none => .error .missingEnd
  | some _ => Recur.iterate r yieldFuel convFuel searchFuel

/-- Whether a yielded date is the exact start date (the next() loop
skips it without counting it). -/
def Recur.isSameStart (r : Recur) (d : CivilDate) : Bool :=
  match r.start with
  | some s => dayNumber d == dayNumber s
  | none => false

/-- The consumer loop of next(): pull lazily from the generator, skip
the exact start date, and stop as soon as num dates are collected (the
generator is not resumed after the break, so later failures are never
reached). -/
def Recur.nextCollect (r : Recur) (convFuel searchFuel : Nat) (num : Nat) :
    Nat → CivilDate → Nat → Except IterErr (List CivilDate)
  | 0, _, _ => .error .fuelOut
  | yieldFuel + 1, cur, count =>
    match r.findNextMatch convFuel searchFuel cur with
    | .error .typeErr => .error .typeErr
    | .error .exhausted => .ok []
    | .ok nd =>
      if (match r.endDate with
          | some e => decide (dayNumber e < dayNumber nd)
          | none => false) then .ok []
      else if r.isException nd then
        Recur.nextCollect r convFuel searchFuel num yieldFuel nd count
      else if r.isSameStart nd then
        if num ≤ count then .ok []
        else Recur.nextCollect r convFuel searchFuel num yieldFuel nd count
      else if num ≤ count + 1 then .ok [nd]
      else (fun rest => nd :: rest) <$>
        Recur.nextCollect r convFuel searchFuel num yieldFuel nd (count + 1)

/-- next(num) of src/recur.ts: empty for num = 0 (the generator never
starts), otherwise the lazy consumer over the forward enumeration,
beginning with the origin yield. -/
def Recur.next (r : Recur) (num : Nat) (yieldFuel convFuel searchFuel : Nat) :
    Except IterErr (List CivilDate) :=
  if num = 0 then .ok []
  else
    match (match r.fromDate with | some f => some f | none => r.start) with
    | none => .error .noOrigin
    | some startFrom =>
      if (match r.endDate with
          | some e => decide (dayNumber e < dayNumber startFrom)
          | none => false) then .error .rangeInverted
      else if r.matchAllRules startFrom then
        if r.isSameStart startFrom then
          Recur.nextCollect r convFuel searchFuel num yieldFuel startFrom 0
        else if num ≤ 1 then .ok [startFrom]
        else (fun rest => startFrom :: rest) <$>
          Recur.nextCollect r convFuel searchFuel num yieldFuel startFrom 1
      else Recur.nextCollect r convFuel searchFuel num yieldFuel startFrom 0


/-- C2: for every Recurrence and every date in its exception set,
matches returns false regardless of the bounds check and of what the
rules say: the exception test runs before the rule tests and overrides
them. -/
theorem exception_overrides_matches (r : Recur) (inp : DateTimeInput)
    (ignoreStartEnd : Bool)
    (h : r.isException (dateOnly inp) = true) :
    r.matches inp ignoreStartEnd = false := by
  unfold Recur.matches
  simp only [h]
  split <;> simp

/-- Witness for C2: a two-day interval recurrence whose rules match
2014-01-05 and whose window contains it, with 2014-01-05 excepted,
still rejects it. -/
theorem exception_overrides_matches_witness :
    (Recur.isException
      { start := some ⟨2014, 0, 1⟩, endDate := some ⟨2014, 11, 31⟩,
        rules := [.interval ⟨[2], .days, ⟨2014, 0, 1⟩⟩],
        exceptions := [⟨2014, 0, 5⟩] } (dateOnly ⟨⟨2014, 0, 5⟩, 0⟩) = true) ∧
    (Recur.matchAllRules
      { start := some ⟨2014, 0, 1⟩, endDate := some ⟨2014, 11, 31⟩,
        rules := [.interval ⟨[2], .days, ⟨2014, 0, 1⟩⟩],
        exceptions := [⟨2014, 0, 5⟩] } ⟨2014, 0, 5⟩ = true) ∧
    (Recur.matches
      { start := some ⟨2014, 0, 1⟩, endDate := some ⟨2014, 11, 31⟩,
        rules := [.interval ⟨[2], .days, ⟨2014, 0, 1⟩⟩],
        exceptions := [⟨2014, 0, 5⟩] } ⟨⟨2014, 0, 5⟩, 0⟩ false = false) :=
  ⟨by decide, by decide,
    exception_overrides_matches _ _ _ (by decide)⟩

/-- C10: matches is invariant under the time-of-day of its input: the
input is reduced to its calendar date by dateOnly before the bounds,
exception and rule checks, so two valid inputs denoting the same
calendar day get the same verdict. -/
theorem matches_ignores_time_of_day (r : Recur) (d1 d2 : DateTimeInput)
    (ignoreStartEnd : Bool) (h : d1.date = d2.date) :
    r.matches d1 ignoreStartEnd = r.matches d2 ignoreStartEnd := by
  unfold Recur.matches dateOnly
  rw [h]

/-- Witness for C10: midnight and a late-evening time on 2014-01-03
match identically. -/
theorem matches_ignores_time_of_day_witness :
    Recur.matches
      { start := some ⟨2014, 0, 1⟩,
        rules := [.interval ⟨[2], .days, ⟨2014, 0, 1⟩⟩] }
      ⟨⟨2014, 0, 3⟩, 0⟩ false
    = Recur.matches
      { start := some ⟨2014, 0, 1⟩,
        rules := [.interval ⟨[2], .days, ⟨2014, 0, 1⟩⟩] }
      ⟨⟨2014, 0, 3⟩, 81000000⟩ false :=
  matches_ignores_time_of_day _ _ _ _ (by decide)

/-- C6 counterexample: with start 2017-07-26 and end 2013-08-01 (start
after end) but a from date 2013-07-01 before the end, the enumeration
does not fail with RangeInverted: next(1) succeeds and returns a
date. -/
theorem rangeInverted_bypassed_by_fromDate :
    (Recur.next
      { start := some ⟨2017, 6, 26⟩, endDate := some ⟨2013, 7, 1⟩,
        fromDate := some ⟨2013, 6, 1⟩ } 1 20 20 20
      = .ok [⟨2013, 6, 1⟩]) ∧
    dayNumber ⟨2013, 7, 1⟩ < dayNumber ⟨2017, 6, 26⟩ := by
  constructor
  · decide
  · decide

/-- C6 amended: the RangeInverted check compares the enumeration
origin, which is the from date when one is set and the start date
otherwise, against the end date.  When no from date is set and
start > end, next(n) for n ≥ 1, all() and the iterator all fail with
RangeInverted and return no partial results. -/
theorem rangeInverted_on_start_origin (r : Recur) (s e : CivilDate)
    (num yf cf sf : Nat)
    (hf : r.fromDate = none) (hs : r.start = some s)
    (he : r.endDate = some e) (hlt : dayNumber e < dayNumber s)
    (hnum : 1 ≤ num) :
    r.next num yf cf sf = .error .rangeInverted ∧
    r.all yf cf sf = .error .rangeInverted ∧
    r.iterate yf cf sf = .error .rangeInverted := by
  refine ⟨?_, ?_, ?_⟩
  · unfold Recur.next
    rw [hf, hs, he]
    simp only [if_neg (by omega : ¬ num = 0)]
    simp [hlt]
  · unfold Recur.all Recur.iterate
    rw [hf, hs, he]
    simp [hlt]
  · unfold Recur.iterate
    rw [hf, hs, he]
    simp [hlt]

/-- Witness for C6 amended: the spec's own scenario, start 2017-07-26
with end 2013-08-01 and no from date. -/
theorem rangeInverted_on_start_origin_witness :
    Recur.next
      { start := some ⟨2017, 6, 26⟩, endDate := some ⟨2013, 7, 1⟩ }
      3 20 20 20 = .error .rangeInverted ∧
    Recur.all
      { start := some ⟨2017, 6, 26⟩, endDate := some ⟨2013, 7, 1⟩ }
      20 20 20 = .error .rangeInverted ∧
    Recur.iterate
      { start := some ⟨2017, 6, 26⟩, endDate := some ⟨2013, 7, 1⟩ }
      20 20 20 = .error .rangeInverted :=
  rangeInverted_on_start_origin _ _ _ 3 20 20 20 rfl rfl rfl
    (by decide) (by omega)

/-- C3 counterexample: an every-day recurrence over 2018-01-01 to
2018-01-03 whose start date 2018-01-01 is in the exception set still
yields 2018-01-01: the origin date is yielded after the rule check only,
with no exception re-check. -/
theorem origin_yield_skips_exception_check :
    (Recur.all
      { start := some ⟨2018, 0, 1⟩, endDate := some ⟨2018, 0, 3⟩,
        rules := [.interval ⟨[1], .days, ⟨2018, 0, 1⟩⟩],
        exceptions := [⟨2018, 0, 1⟩] } 20 20 20
      = .ok [⟨2018, 0, 1⟩, ⟨2018, 0, 2⟩, ⟨2018, 0, 3⟩]) ∧
    (Recur.isException
      { start := some ⟨2018, 0, 1⟩, endDate := some ⟨2018, 0, 3⟩,
        rules := [.interval ⟨[1], .days, ⟨2018, 0, 1⟩⟩],
        exceptions := [⟨2018, 0, 1⟩] } ⟨2018, 0, 1⟩ = true) := by
  constructor
  · decide
  · decide

/-- Dates produced by the iterator's advance loop are never in the
exception set: the loop re-checks each candidate before yielding it. -/
theorem iterLoop_no_exception (r : Recur) (cf sf : Nat) :
    ∀ (yf : Nat) (cur : CivilDate) (l : List CivilDate),
      Recur.iterLoop r cf sf yf cur = .ok l →
      ∀ d ∈ l, r.isException d = false := by
  intro yf
  induction yf with
  | zero =>
    intro cur l h
    simp [Recur.iterLoop] at h
  | succ k ih =>
    intro cur l h
    unfold Recur.iterLoop at h
    cases hf : r.findNextMatch cf sf cur with
    | error e =>
      rw [hf] at h
      cases e
      · simp only [Except.ok.injEq] at h
        subst h
        intro d hd
        simp at hd
      · simp at h
    | ok nd =>
      rw [hf] at h
      simp only at h
      split at h
      · simp only [Except.ok.injEq] at h
        subst h
        intro d hd
        simp at hd
      · cases hrest : Recur.iterLoop r cf sf k nd with
        | error e =>
          rw [hrest] at h
          simp [Bind.bind, Except.bind] at h
        | ok rest =>
          rw [hrest] at h
          simp only [Bind.bind, Except.bind] at h
          by_cases hex : r.isException nd = true
          · rw [if_pos hex] at h
            cases h
            exact ih nd _ hrest
          · rw [if_neg hex] at h
            cases h
            intro d hd
            rcases List.mem_cons.mp hd with hd | hd
            · subst hd
              exact Bool.not_eq_true _ |>.mp hex
            · exact ih nd _ hrest d hd

/-- C3 amended: every date yielded by the forward enumeration other
than the origin date is re-checked against the exception set and
skipped if excepted (consuming no output slot); the origin date,
however, is yielded whenever it matches all rules, without any
exception check. -/
theorem enumeration_excepted_dates_are_origin (r : Recur)
    (yf cf sf : Nat) (o : CivilDate) (l : List CivilDate)
    (ho : (match r.fromDate with | some f => some f | none => r.start) = some o)
    (h : r.iterate yf cf sf = .ok l) :
    ∀ d ∈ l, r.isException d = true → d = o := by
  unfold Recur.iterate at h
  split at h
  · rename_i heq
    rw [ho] at heq
    simp at heq
  · rename_i s heq
    rw [ho] at heq
    injection heq with heq2
    subst heq2
    split at h
    · simp at h
    · cases hrest : Recur.iterLoop r cf sf yf o with
      | error e =>
        rw [hrest] at h
        simp [Bind.bind, Except.bind] at h
      | ok rest =>
        rw [hrest] at h
        simp only [Bind.bind, Except.bind] at h
        have hne := iterLoop_no_exception r cf sf yf o rest hrest
        by_cases hm : r.matchAllRules o = true
        · rw [if_pos hm] at h
          cases h
          intro d hd hexd
          rcases List.mem_cons.mp hd with hd | hd
          · exact hd
          · exact absurd hexd (by simp [hne d hd])
        · rw [if_neg hm] at h
          cases h
          intro d hd hexd
          exact absurd hexd (by simp [hne d hd])

/-- Witness for C3 amended: in the counterexample recurrence the date
2018-01-01 is yielded and excepted, and it is the origin. -/
theorem enumeration_excepted_dates_are_origin_witness :
    Recur.isException
        { start := some ⟨2018, 0, 1⟩, endDate := some ⟨2018, 0, 3⟩,
          rules := [.interval ⟨[1], .days, ⟨2018, 0, 1⟩⟩],
          exceptions := [⟨2018, 0, 1⟩] } ⟨2018, 0, 1⟩ = true ∧
      (⟨2018, 0, 1⟩ : CivilDate) = ⟨2018, 0, 1⟩ :=
  ⟨by decide,
    enumeration_excepted_dates_are_origin
      { start := some ⟨2018, 0, 1⟩, endDate := some ⟨2018, 0, 3⟩,
        rules := [.interval ⟨[1], .days, ⟨2018, 0, 1⟩⟩],
        exceptions := [⟨2018, 0, 1⟩] }
      20 20 20 ⟨2018, 0, 1⟩
      [⟨2018, 0, 1⟩, ⟨2018, 0, 2⟩, ⟨2018, 0, 3⟩]
      (by decide) (by decide) ⟨2018, 0, 1⟩ (by decide) (by decide)⟩

theorem mem_insertAscInt (a x : Int) (l : List Int) :
    a ∈ insertAscInt x l ↔ a = x ∨ a ∈ l := by
  induction l with
  | nil => simp [insertAscInt]
  | cons y ys ih =>
    unfold insertAscInt
    split
    · simp
    · simp only [List.mem_cons, ih]
      tauto

theorem sorted_insertAscInt (x : Int) (l : List Int)
    (h : List.Pairwise (· ≤ ·) l) :
    List.Pairwise (· ≤ ·) (insertAscInt x l) := by
  induction l with
  | nil => simp [insertAscInt]
  | cons y ys ih =>
    unfold insertAscInt
    rcases List.pairwise_cons.mp h with ⟨hy, hys⟩
    split
    · exact List.pairwise_cons.mpr
        ⟨fun b hb => by
          rcases List.mem_cons.mp hb with hb | hb
          · omega
          · have := hy b hb; omega, h⟩
    · refine List.pairwise_cons.mpr ⟨fun b hb => ?_, ih hys⟩
      rcases (mem_insertAscInt b x ys).mp hb with hb | hb
      · omega
      · exact hy b hb

theorem sorted_sortInts (l : List Int) :
    List.Pairwise (· ≤ ·) (sortInts l) := by
  induction l with
  | nil => simp [sortInts]
  | cons x xs ih => exact sorted_insertAscInt x (sortInts xs) ih

theorem mem_sortInts (a : Int) (l : List Int) :
    a ∈ sortInts l ↔ a ∈ l := by
  induction l with
  | nil => simp [sortInts]
  | cons x xs ih =>
    show a ∈ insertAscInt x (sortInts xs) ↔ _
    rw [mem_insertAscInt, ih]
    simp

theorem head_of_sorted_min (l : List Int) (x : Int)
    (hs : List.Pairwise (· ≤ ·) l) (hmem : x ∈ l)
    (hmin : ∀ y ∈ l, x ≤ y) : l.head? = some x := by
  cases l with
  | nil => simp at hmem
  | cons h t =>
    rcases List.pairwise_cons.mp hs with ⟨hh, _⟩
    rcases List.mem_cons.mp hmem with hx | hx
    · simp [hx]
    · have h1 := hh x hx
      have h2 := hmin h (List.mem_cons_self h t)
      have : x = h := by omega
      simp [this]

theorem mapExcept_ok_forall {α β ε : Type} (f : α → Except ε β) :
    ∀ (l : List α) (ys : List β), mapExcept f l = .ok ys →
      ∀ y ∈ ys, ∃ x ∈ l, f x = .ok y := by
  intro l
  induction l with
  | nil =>
    intro ys h y hy
    simp only [mapExcept, Except.ok.injEq] at h
    subst h
    simp at hy
  | cons x xs ih =>
    intro ys h y hy
    unfold mapExcept at h
    cases hfx : f x with
    | error e => rw [hfx] at h; simp [Bind.bind, Except.bind] at h
    | ok b =>
      rw [hfx] at h
      simp only [Bind.bind, Except.bind] at h
      cases hrest : mapExcept f xs with
      | error e => rw [hrest] at h; simp at h
      | ok bs =>
        rw [hrest] at h
        simp only [Except.ok.injEq] at h
        subst h
        rcases List.mem_cons.mp hy with hy | hy
        · exact ⟨x, List.mem_cons_self x xs, by rw [hfx, hy]⟩
        · rcases ih bs hrest y hy with ⟨x2, hx2, hfx2⟩
          exact ⟨x2, List.mem_cons_of_mem x hx2, hfx2⟩

theorem normalizeUnits_range (measure : CalendarMeasure)
    (unitsIn : List UnitInput) (units : List Int)
    (h : Calendar.normalizeUnits measure unitsIn = .ok units) :
    ∀ u ∈ units, u = -1 ∨
      (Calendar.low measure ≤ u ∧ u ≤ Calendar.high measure) := by
  unfold Calendar.normalizeUnits at h
  cases hm : mapExcept (fun uIn => (do
      let u : Int := match uIn with | .last => -1 | .num n => n
      if (u < Calendar.low measure ∨ Calendar.high measure < u) ∧ u ≠ -1 then
        throw RuleError.outOfRange
      else
        pure u : Except RuleError Int)) unitsIn with
  | error e => rw [hm] at h; simp [Bind.bind, Except.bind] at h
  | ok mapped =>
    rw [hm] at h
    simp only [Bind.bind, Except.bind, pure, Except.pure, Except.ok.injEq] at h
    subst h
    intro u hu
    rcases mapExcept_ok_forall _ unitsIn mapped hm u
      ((mem_sortInts u mapped).mp hu) with ⟨uIn, _, hfu⟩
    simp only at hfu
    split at hfu
    · simp [throw, throwThe, MonadExceptOf.throw] at hfu
    · rename_i hcond
      simp only [pure, Except.pure, Except.ok.injEq] at hfu
      subst hfu
      rcases not_and_or.mp hcond with hc | hc
      · right
        constructor <;> omega
      · left
        exact not_not.mp hc

theorem normalizeUnits_sorted (measure : CalendarMeasure)
    (unitsIn : List UnitInput) (units : List Int)
    (h : Calendar.normalizeUnits measure unitsIn = .ok units) :
    List.Pairwise (· ≤ ·) units := by
  unfold Calendar.normalizeUnits at h
  cases hm : mapExcept (fun uIn => (do
      let u : Int := match uIn with | .last => -1 | .num n => n
      if (u < Calendar.low measure ∨ Calendar.high measure < u) ∧ u ≠ -1 then
        throw RuleError.outOfRange
      else
        pure u : Except RuleError Int)) unitsIn with
  | error e => rw [hm] at h; simp [Bind.bind, Except.bind] at h
  | ok mapped =>
    rw [hm] at h
    simp only [Bind.bind, Except.bind, pure, Except.pure, Except.ok.injEq] at h
    subst h
    exact sorted_sortInts mapped

theorem low_nonneg (measure : CalendarMeasure) : 0 ≤ Calendar.low measure := by
  cases measure <;> decide

/-- C8: when a Calendar rule's normalized unit set contains the
sentinel -1 (the token "last" mapped during normalization), the
sentinel sorts first, and matches returns true whenever the date's
period-field value equals the period-field value at the end of the
containing range. -/
theorem calendar_last_sentinel_matches (measure : CalendarMeasure)
    (unitsIn : List UnitInput) (units : List Int) (d : CivilDate)
    (hnorm : Calendar.normalizeUnits measure unitsIn = .ok units)
    (hmem : (-1 : Int) ∈ units)
    (heq : Calendar.periodUnit ⟨units, measure⟩ d =
      Calendar.periodUnit ⟨units, measure⟩
        (endOfUnit (Calendar.range measure) d)) :
    Calendar.match ⟨units, measure⟩ d = true := by
  have hhead : units.head? = some (-1) := by
    refine head_of_sorted_min units (-1)
      (normalizeUnits_sorted measure unitsIn units hnorm) hmem ?_
    intro y hy
    rcases normalizeUnits_range measure unitsIn units hnorm y hy with hy1 | hy1
    · omega
    · have := low_nonneg measure; omega
  unfold Calendar.match
  by_cases hc :
      units.contains (Calendar.periodUnit ⟨units, measure⟩ d) = true
  · simp only [Calendar.match]
    simp at hc
    simp [hc]
  · simp only [hc, if_false, Bool.false_eq_true]
    have hcond : (units.head? == some (-1) &&
        (Calendar.periodUnit ⟨units, measure⟩ d ==
          Calendar.periodUnit ⟨units, measure⟩
            (endOfUnit (Calendar.range measure) d))) = true := by
      simp [hhead, heq]
    simp [hcond]

/-- Witness for C8: a daysOfMonth rule built from the token "last"
normalizes to [-1] and matches 2018-02-28, 2018-03-31, and
2018-04-30. -/
theorem calendar_last_sentinel_matches_witness :
    (Calendar.normalizeUnits .daysOfMonth [.last] = .ok [-1]) ∧
    Calendar.match ⟨[-1], .daysOfMonth⟩ ⟨2018, 1, 28⟩ = true ∧
    Calendar.match ⟨[-1], .daysOfMonth⟩ ⟨2018, 2, 31⟩ = true ∧
    Calendar.match ⟨[-1], .daysOfMonth⟩ ⟨2018, 3, 30⟩ = true :=
  ⟨by decide,
    calendar_last_sentinel_matches .daysOfMonth [.last] [-1] _
      (by decide) (by decide) (by decide),
    calendar_last_sentinel_matches .daysOfMonth [.last] [-1] _
      (by decide) (by decide) (by decide),
    calendar_last_sentinel_matches .daysOfMonth [.last] [-1] _
      (by decide) (by decide) (by decide)⟩

theorem monthDiff_addMonths (a : CivilDate) (n : Int)
    (ha : a.isValid = true) :
    ∃ den : Int, 0 < den ∧ monthDiff a (addMonths a n) = ⟨-(n * den), den⟩ := by
  have hbday : (addMonths a n).day ≤ a.day := by
    unfold addMonths
    dsimp only
    exact min_le_left _ _
  have hw : monthIndex (addMonths a n) - monthIndex a = n := by
    rw [monthIndex_addMonths]; ring
  refine ⟨dayNumber (addMonths a (n + 1)) - dayNumber (addMonths a n), ?_, ?_⟩
  · have h1 := isValid_addMonths a n ha
    have h2 := isValid_addMonths a (n + 1) ha
    have h3 := dayNumber_lt_of_monthIndex_lt (addMonths a n) (addMonths a (n + 1))
      h1 h2 (by rw [monthIndex_addMonths, monthIndex_addMonths]; omega)
    omega
  · unfold monthDiff
    rw [if_neg (by omega)]
    unfold monthDiffCore
    rw [hw]
    simp only [sub_self]
    rw [if_neg (by omega)]
    simp only [sub_zero, add_zero]

theorem dvd_emod_beq_zero (a b : Int) (h : b ∣ a) : (a % b == 0) = true := by
  simp [Int.emod_eq_zero_of_dvd h]

/-- C1: Interval.match returns true exactly when the absolute elapsed
measure-count between the anchor and the date (a whole number of days
for the days measure, an exact fraction for weeks, months and years)
is evenly divisible by at least one configured unit; in particular the
anchor plus any non-negative multiple of a configured unit in the
rule's measure always matches. -/
theorem interval_match_divisibility (units : List Int)
    (measure : IntervalMeasure) (anchor date : CivilDate)
    (hval : anchor.isValid = true) (hpos : ∀ u ∈ units, 0 < u) :
    (Interval.match ⟨units, measure, anchor⟩ date = true ↔
      ∃ u ∈ units,
        (u * ((momentDiff anchor date measure).abs).den) ∣
          ((momentDiff anchor date measure).abs).num) ∧
    (∀ (k : Nat) (u : Int), u ∈ units →
      Interval.match ⟨units, measure, anchor⟩
        (addMeasure anchor ((k : Int) * u) measure) = true) := by
  constructor
  · unfold Interval.match Frac.jsModZero
    dsimp only
    rw [List.any_eq_true]
    constructor
    · rintro ⟨u, hu, hmod⟩
      exact ⟨u, hu, Int.dvd_of_emod_eq_zero (by simpa using hmod)⟩
    · rintro ⟨u, hu, hdvd⟩
      exact ⟨u, hu, by simpa using Int.emod_eq_zero_of_dvd hdvd⟩
  · intro k u hu
    have hupos := hpos u hu
    have hkn : (0 : Int) ≤ (k : Int) * u := by positivity
    unfold Interval.match
    dsimp only
    rw [List.any_eq_true]
    refine ⟨u, hu, ?_⟩
    cases measure with
    | days =>
      unfold addMeasure momentDiff Frac.abs Frac.ofInt Frac.jsModZero
      rw [dayNumber_addDays anchor ((k : Int) * u) hval]
      dsimp only
      have h1 : |dayNumber anchor - (dayNumber anchor + (k : Int) * u)|
          = (k : Int) * u := by
        rw [show dayNumber anchor - (dayNumber anchor + (k : Int) * u)
          = -((k : Int) * u) by ring, abs_neg, abs_of_nonneg hkn]
      rw [h1, abs_one]
      exact dvd_emod_beq_zero _ _ ⟨(k : Int), by ring⟩
    | weeks =>
      unfold addMeasure momentDiff Frac.abs Frac.jsModZero
      rw [dayNumber_addDays anchor (7 * ((k : Int) * u)) hval]
      dsimp only
      have h1 : |dayNumber anchor - (dayNumber anchor + 7 * ((k : Int) * u))|
          = 7 * ((k : Int) * u) := by
        rw [show dayNumber anchor - (dayNumber anchor + 7 * ((k : Int) * u))
          = -(7 * ((k : Int) * u)) by ring, abs_neg,
          abs_of_nonneg (by positivity)]
      rw [h1, show |(7 : Int)| = 7 by norm_num]
      exact dvd_emod_beq_zero _ _ ⟨(k : Int), by ring⟩
    | months =>
      unfold addMeasure
      rcases monthDiff_addMonths anchor ((k : Int) * u) hval with
        ⟨den, hden, hdiff⟩
      unfold momentDiff
      rw [hdiff]
      unfold Frac.abs Frac.jsModZero
      dsimp only
      rw [abs_neg, abs_of_nonneg (by positivity),
        abs_of_nonneg (by omega : (0 : Int) ≤ den)]
      exact dvd_emod_beq_zero _ _ ⟨(k : Int), by ring⟩
    | years =>
      unfold addMeasure addYears
      rcases monthDiff_addMonths anchor (12 * ((k : Int) * u)) hval with
        ⟨den, hden, hdiff⟩
      unfold momentDiff
      rw [hdiff]
      unfold Frac.abs Frac.jsModZero
      dsimp only
      rw [abs_neg, abs_of_nonneg (by positivity),
        abs_of_nonneg (by omega : (0 : Int) ≤ den * 12)]
      exact dvd_emod_beq_zero _ _ ⟨(k : Int), by ring⟩

/-- Witness for C1: the spec example, anchor 2013-01-01 with unit 2 in
days; 2013-01-03 matches (diff 2), and the anchor plus 3 * 2 days
matches by the second conjunct. -/
theorem interval_match_divisibility_witness :
    ((Interval.match ⟨[2], .days, ⟨2013, 0, 1⟩⟩ ⟨2013, 0, 3⟩ = true ↔
      ∃ u ∈ [(2 : Int)],
        (u * ((momentDiff ⟨2013, 0, 1⟩ ⟨2013, 0, 3⟩ .days).abs).den) ∣
          ((momentDiff ⟨2013, 0, 1⟩ ⟨2013, 0, 3⟩ .days).abs).num) ∧
    (∀ (k : Nat) (u : Int), u ∈ [(2 : Int)] →
      Interval.match ⟨[2], .days, ⟨2013, 0, 1⟩⟩
        (addMeasure ⟨2013, 0, 1⟩ ((k : Int) * u) .days) = true)) ∧
    Interval.match ⟨[2], .days, ⟨2013, 0, 1⟩⟩ ⟨2013, 0, 3⟩ = true :=
  ⟨interval_match_divisibility [2] .days ⟨2013, 0, 1⟩ ⟨2013, 0, 3⟩
    (by decide) (by decide), by decide⟩

theorem nextCollect_bounded (r : Recur) (cf sf num : Nat) :
    ∀ (yf : Nat) (cur : CivilDate) (count : Nat) (l : List CivilDate),
      count < num →
      Recur.nextCollect r cf sf num yf cur count = .ok l →
      l.length + count ≤ num ∧ ∀ d ∈ l, r.isSameStart d = false := by
  intro yf
  induction yf with
  | zero =>
    intro cur count l hc h
    simp [Recur.nextCollect] at h
  | succ k ih =>
    intro cur count l hc h
    unfold Recur.nextCollect at h
    cases hf : r.findNextMatch cf sf cur with
    | error e =>
      rw [hf] at h
      cases e
      · simp only [Except.ok.injEq] at h
        subst h
        simp
        omega
      · simp at h
    | ok nd =>
      rw [hf] at h
      simp only at h
      split at h
      · simp only [Except.ok.injEq] at h
        subst h
        simp
        omega
      · by_cases hex : r.isException nd = true
        · rw [if_pos hex] at h
          exact ih nd count l hc h
        · rw [if_neg hex] at h
          by_cases hsame : r.isSameStart nd = true
          · rw [if_pos hsame] at h
            split at h
            · simp only [Except.ok.injEq] at h
              subst h
              simp
              omega
            · exact ih nd count l hc h
          · rw [if_neg hsame] at h
            split at h
            · rename_i hnum
              simp only [Except.ok.injEq] at h
              subst h
              refine ⟨by simp; omega, ?_⟩
              intro d hd
              simp only [List.mem_singleton] at hd
              subst hd
              exact Bool.not_eq_true _ |>.mp hsame
            · rename_i hnum
              cases hrec : Recur.nextCollect r cf sf num k nd (count + 1) with
              | error e =>
                rw [hrec] at h
                simp [Functor.map, Except.map] at h
              | ok rest =>
                rw [hrec] at h
                simp only [Functor.map, Except.map, Except.ok.injEq] at h
                subst h
                obtain ⟨hlen, hmem⟩ := ih nd (count + 1) rest (by omega) hrec
                refine ⟨by simp; omega, ?_⟩
                intro d hd
                rcases List.mem_cons.mp hd with hd | hd
                · subst hd
                  exact Bool.not_eq_true _ |>.mp hsame
                · exact hmem d hd

/-- C4: next(n) collects dates from the forward enumeration, never
includes the exact start date, and returns at most n dates (fewer when
the enumeration terminates early). -/
theorem next_bounded_and_excludes_start (r : Recur) (num yf cf sf : Nat)
    (l : List CivilDate) (h : r.next num yf cf sf = .ok l) :
    l.length ≤ num ∧ ∀ d ∈ l, r.isSameStart d = false := by
  unfold Recur.next at h
  split at h
  · rename_i hz
    simp only [Except.ok.injEq] at h
    subst h
    simp
  · rename_i hz
    split at h
    · simp at h
    · rename_i startFrom heq
      split at h
      · simp at h
      · by_cases hm : r.matchAllRules startFrom = true
        · rw [if_pos hm] at h
          by_cases hsame : r.isSameStart startFrom = true
          · rw [if_pos hsame] at h
            obtain ⟨h1, h2⟩ := nextCollect_bounded r cf sf num yf startFrom 0 l
              (by omega) h
            exact ⟨by omega, h2⟩
          · rw [if_neg hsame] at h
            split at h
            · rename_i hone
              simp only [Except.ok.injEq] at h
              subst h
              refine ⟨by simp; omega, ?_⟩
              intro d hd
              simp only [List.mem_singleton] at hd
              subst hd
              exact Bool.not_eq_true _ |>.mp hsame
            · rename_i hone
              cases hrec : Recur.nextCollect r cf sf num yf startFrom 1 with
              | error e =>
                rw [hrec] at h
                simp [Functor.map, Except.map] at h
              | ok rest =>
                rw [hrec] at h
                simp only [Functor.map, Except.map, Except.ok.injEq] at h
                subst h
                obtain ⟨h1, h2⟩ := nextCollect_bounded r cf sf num yf startFrom 1
                  rest (by omega) hrec
                refine ⟨by simp; omega, ?_⟩
                intro d hd
                rcases List.mem_cons.mp hd with hd | hd
                · subst hd
                  exact Bool.not_eq_true _ |>.mp hsame
                · exact h2 d hd
        · rw [if_neg hm] at h
          obtain ⟨h1, h2⟩ := nextCollect_bounded r cf sf num yf startFrom 0 l
            (by omega) h
          exact ⟨by omega, h2⟩

/-- Witness for C4: the spec example, anchor and start 2014-01-01 with
an every-2-days rule; next(3) is exactly 2014-01-03, 2014-01-05,
2014-01-07, which has at most three dates and excludes the start. -/
theorem next_bounded_and_excludes_start_witness :
    (Recur.next
      { start := some ⟨2014, 0, 1⟩,
        rules := [.interval ⟨[2], .days, ⟨2014, 0, 1⟩⟩] } 3 20 20 20
      = .ok [⟨2014, 0, 3⟩, ⟨2014, 0, 5⟩, ⟨2014, 0, 7⟩]) ∧
    ([(⟨2014, 0, 3⟩ : CivilDate), ⟨2014, 0, 5⟩, ⟨2014, 0, 7⟩].length ≤ 3 ∧
      ∀ d ∈ [(⟨2014, 0, 3⟩ : CivilDate), ⟨2014, 0, 5⟩, ⟨2014, 0, 7⟩],
        Recur.isSameStart
          { start := some ⟨2014, 0, 1⟩,
            rules := [.interval ⟨[2], .days, ⟨2014, 0, 1⟩⟩] } d = false) :=
  ⟨by decide,
    next_bounded_and_excludes_start _ 3 20 20 20 _ (by decide)⟩

theorem insertAscInt_of_le (x : Int) (l : List Int)
    (h : ∀ y ∈ l, x ≤ y) : insertAscInt x l = x :: l := by
  cases l with
  | nil => rfl
  | cons y ys =>
    unfold insertAscInt
    rw [if_pos (h y (List.mem_cons_self y ys))]

theorem sortInts_eq_self_of_sorted (l : List Int)
    (h : List.Pairwise (· ≤ ·) l) : sortInts l = l := by
  induction l with
  | nil => rfl
  | cons x xs ih =>
    rcases List.pairwise_cons.mp h with ⟨hx, hxs⟩
    show insertAscInt x (sortInts xs) = x :: xs
    rw [ih hxs]
    exact insertAscInt_of_le x xs hx

theorem mapExcept_map_roundtrip {α β ε : Type} (f : α → Except ε β)
    (g : β → α) (l : List β) (h : ∀ x ∈ l, f (g x) = .ok x) :
    mapExcept f (l.map g) = .ok l := by
  induction l with
  | nil => rfl
  | cons x xs ih =>
    simp only [List.map_cons]
    unfold mapExcept
    rw [h x (List.mem_cons_self x xs)]
    simp only [Bind.bind, Except.bind]
    rw [ih (fun y hy => h y (List.mem_cons_of_mem x hy))]

theorem interval_normalizeUnits_roundtrip (us : List Int)
    (h : ∀ u ∈ us, 0 < u) :
    Interval.normalizeUnits (us.map UnitInput.num) = .ok us := by
  unfold Interval.normalizeUnits
  refine mapExcept_map_roundtrip _ _ us (fun u hu => ?_)
  simp only [if_neg (by have := h u hu; omega : ¬ u ≤ 0)]
  rfl

theorem calendar_normalizeUnits_roundtrip (measure : CalendarMeasure)
    (us : List Int)
    (hd : ∀ u ∈ us, u = -1 ∨
      (Calendar.low measure ≤ u ∧ u ≤ Calendar.high measure))
    (hs : List.Pairwise (· ≤ ·) us) :
    Calendar.normalizeUnits measure (us.map UnitInput.num) = .ok us := by
  unfold Calendar.normalizeUnits
  have hm : mapExcept (fun uIn => (do
      let u : Int := match uIn with | .last => -1 | .num n => n
      if (u < Calendar.low measure ∨ Calendar.high measure < u) ∧ u ≠ -1 then
        throw RuleError.outOfRange
      else
        pure u : Except RuleError Int)) (us.map UnitInput.num) = .ok us := by
    refine mapExcept_map_roundtrip _ _ us (fun u hu => ?_)
    simp only
    rw [if_neg (by rcases hd u hu with h | h <;> [simp [h]; skip]; omega)]
    rfl
  rw [hm]
  simp only [Bind.bind, Except.bind, pure, Except.pure]
  rw [sortInts_eq_self_of_sorted us hs]

/-- Rules as they exist after construction: interval units positive
with the anchor equal to the recurrence start, calendar units within
the measure's domain (or the sentinel) and sorted ascending. -/
def Rule.roundTripWf (start : Option CivilDate) : Rule → Prop
  | .interval iv => (∀ u ∈ iv.units, 0 < u) ∧ start = some iv.start
  | .calendar c =>
      (∀ u ∈ c.units, u = -1 ∨
        (Calendar.low c.measure ≤ u ∧ u ≤ Calendar.high c.measure)) ∧
      List.Pairwise (· ≤ ·) c.units

theorem rule_factory_roundtrip (start : Option CivilDate) (rule : Rule)
    (hw : Rule.roundTripWf start rule) :
    Rule.factory (rule.unitsOf.map UnitInput.num) rule.measureOf start = .ok rule := by
  cases rule with
  | interval iv =>
    obtain ⟨hpos, hstart⟩ := hw
    have hnorm := interval_normalizeUnits_roundtrip iv.units hpos
    cases hm : iv.measure <;>
      · simp only [Rule.factory, Rule.unitsOf, Rule.measureOf, hm,
          IntervalMeasure.toMeasure]
        unfold Interval.create
        rw [hnorm]
        simp only [Bind.bind, Except.bind, hstart]
        simp [Functor.map, Except.map, pure, Except.pure, ← hm]
  | calendar c =>
    obtain ⟨hd, hs⟩ := hw
    cases hm : c.measure <;>
      · have hnorm := calendar_normalizeUnits_roundtrip c.measure c.units hd hs
        simp only [Rule.factory, Rule.unitsOf, Rule.measureOf, hm,
          CalendarMeasure.toMeasure]
        unfold Calendar.create
        rw [hm] at hnorm
        rw [hnorm]
        simp [Bind.bind, Except.bind, Functor.map, Except.map, pure,
          Except.pure, ← hm]

/-- C9: the options record exported by save() reconstructs an
equivalent Recurrence: same start, end, rules and exceptions, with the
transient from date left unset (it is never exported). -/
theorem save_roundtrip (r : Recur)
    (hw : ∀ rule ∈ r.rules, Rule.roundTripWf r.start rule) :
    ∃ r2 : Recur, Recur.create r.save = .ok r2 ∧
      r2.start = r.start ∧ r2.endDate = r.endDate ∧
      r2.rules = r.rules ∧ r2.exceptions = r.exceptions ∧
      r2.fromDate = none := by
  refine ⟨⟨r.start, r.endDate, none, r.rules, r.exceptions, 1000⟩,
    ?_, rfl, rfl, rfl, rfl, rfl⟩
  unfold Recur.create Recur.save
  simp only
  have hrules : mapExcept
      (fun rc => Rule.factory rc.units rc.measure r.start)
      (r.rules.map (fun rule => (⟨rule.unitsOf.map UnitInput.num,
        rule.measureOf⟩ : RuleConfig))) = .ok r.rules := by
    refine mapExcept_map_roundtrip _ _ r.rules (fun rule hrule => ?_)
    exact rule_factory_roundtrip r.start rule (hw rule hrule)
  rw [hrules]
  simp [Bind.bind, Except.bind, pure, Except.pure]

/-- Witness for C9: a recurrence with an interval rule and a calendar
rule (as built by the constructor) survives the save/create round
trip. -/
theorem save_roundtrip_witness :
    ∃ r2 : Recur, Recur.create (Recur.save
      { start := some ⟨2014, 0, 1⟩, endDate := some ⟨2014, 11, 31⟩,
        fromDate := some ⟨2014, 5, 1⟩,
        rules := [.interval ⟨[2], .days, ⟨2014, 0, 1⟩⟩,
                  .calendar ⟨[-1, 10], .daysOfMonth⟩],
        exceptions := [⟨2014, 0, 5⟩] }) = .ok r2 ∧
      r2.start = some ⟨2014, 0, 1⟩ ∧ r2.endDate = some ⟨2014, 11, 31⟩ ∧
      r2.rules = [.interval ⟨[2], .days, ⟨2014, 0, 1⟩⟩,
                  .calendar ⟨[-1, 10], .daysOfMonth⟩] ∧
      r2.exceptions = [⟨2014, 0, 5⟩] ∧
      r2.fromDate = none := by
  have h := save_roundtrip
    { start := some ⟨2014, 0, 1⟩, endDate := some ⟨2014, 11, 31⟩,
      fromDate := some ⟨2014, 5, 1⟩,
      rules := [.interval ⟨[2], .days, ⟨2014, 0, 1⟩⟩,
                .calendar ⟨[-1, 10], .daysOfMonth⟩],
      exceptions := [⟨2014, 0, 5⟩] }
    (by
      intro rule hrule
      simp only [List.mem_cons, List.mem_singleton] at hrule
      rcases hrule with h1 | h1 | h1
      · subst h1
        exact ⟨by decide, rfl⟩
      · subst h1
        refine ⟨by decide, by decide⟩
      · simp at h1)
  exact h

/-- C7: when a rule's search signals SearchExhausted at the enumeration
origin (the source's RangeError on crossing the maximumYears horizon),
the iterator catches it and simply ends: next(n) and all() return
successfully with an empty or one-element (origin only) list, and no
error reaches the caller. -/
theorem searchExhausted_recovered (r : Recur) (o e : CivilDate)
    (num yf cf sf : Nat)
    (ho : (match r.fromDate with | some f => some f | none => r.start) = some o)
    (he : r.endDate = some e) (hoe : ¬ dayNumber e < dayNumber o)
    (hx : r.findNextMatch cf sf o = .error .exhausted)
    (hnum : 1 ≤ num) :
    r.next num (yf + 1) cf sf =
      .ok (if r.matchAllRules o = true ∧ r.isSameStart o = false
        then [o] else []) ∧
    r.all (yf + 1) cf sf =
      .ok (if r.matchAllRules o = true then [o] else []) := by
  have hcollect : ∀ count : Nat,
      Recur.nextCollect r cf sf num (yf + 1) o count = .ok [] := by
    intro count
    unfold Recur.nextCollect
    rw [hx]
  constructor
  · unfold Recur.next
    rw [if_neg (by omega : ¬ num = 0)]
    simp only [ho, he, decide_eq_true_eq, if_neg hoe]
    by_cases hm : r.matchAllRules o = true
    · rw [if_pos hm]
      by_cases hsame : r.isSameStart o = true
      · rw [if_pos hsame, hcollect 0]
        rw [if_neg (by simp [hm, hsame])]
      · rw [if_neg hsame]
        rw [if_pos (by constructor <;> simp [hm, hsame] :
          r.matchAllRules o = true ∧ r.isSameStart o = false)]
        split
        · rfl
        · rw [hcollect 1]
          rfl
    · rw [if_neg hm, hcollect 0]
      rw [if_neg (by simp [hm])]
  · unfold Recur.all
    rw [he]
    unfold Recur.iterate
    simp only [ho, he, decide_eq_true_eq, if_neg hoe]
    have hloop : Recur.iterLoop r cf sf (yf + 1) o = .ok [] := by
      unfold Recur.iterLoop
      rw [hx]
    rw [hloop]
    simp only [Bind.bind, Except.bind]
    by_cases hm : r.matchAllRules o = true
    · rw [if_pos hm, if_pos hm]
      rfl
    · rw [if_neg hm, if_neg hm]
      rfl

set_option maxRecDepth 8000 in
/-- Witness for C7: a February-only rule combined with a day-30 rule
never matches; with a two-year horizon the search exhausts at the
origin 2018-01-01 and next(5)/all() return empty lists without
surfacing an error. -/
theorem searchExhausted_recovered_witness :
    Recur.next
      { start := some ⟨2018, 0, 1⟩, endDate := some ⟨2020, 4, 1⟩,
        rules := [.calendar ⟨[1], .monthsOfYear⟩,
                  .calendar ⟨[30], .daysOfMonth⟩],
        maximumYears := 2 } 5 10 30 30 = .ok [] ∧
    Recur.all
      { start := some ⟨2018, 0, 1⟩, endDate := some ⟨2020, 4, 1⟩,
        rules := [.calendar ⟨[1], .monthsOfYear⟩,
                  .calendar ⟨[30], .daysOfMonth⟩],
        maximumYears := 2 } 10 30 30 = .ok [] := by
  have h := searchExhausted_recovered
    { start := some ⟨2018, 0, 1⟩, endDate := some ⟨2020, 4, 1⟩,
      rules := [.calendar ⟨[1], .monthsOfYear⟩,
                .calendar ⟨[30], .daysOfMonth⟩],
      maximumYears := 2 } ⟨2018, 0, 1⟩ ⟨2020, 4, 1⟩ 5 9 30 30
    (by decide) (by decide) (by decide) (by decide) (by decide)
  rcases h with ⟨h1, h2⟩
  refine ⟨?_, ?_⟩
  · rw [h1]
    decide
  · rw [h2]
    decide

theorem monthTable_nonneg (m : Int) : 0 ≤ monthTable m := by
  unfold monthTable
  repeat' split
  all_goals omega

theorem dayNumber_startOfYear_le (d : CivilDate) (h : d.isValid = true) :
    dayNumber ⟨d.year, 0, 1⟩ ≤ dayNumber d := by
  simp only [CivilDate.isValid, Bool.and_eq_true, decide_eq_true_eq] at h
  have := monthTable_nonneg d.month
  simp only [dayNumber]
  dsimp only
  simp only [monthTable]
  split <;> omega

theorem dayNumber_le_endOfYear (d : CivilDate) (h : d.isValid = true) :
    dayNumber d ≤ dayNumber (endOfYear d) := by
  have h2 := h
  simp only [CivilDate.isValid, Bool.and_eq_true, decide_eq_true_eq] at h2
  obtain ⟨⟨⟨hm0, hm1⟩, hd1⟩, hd2⟩ := h2
  unfold endOfYear
  by_cases h11 : d.month = 11
  · have hd31 : d.day ≤ 31 := by
      simp only [daysInMonth, h11] at hd2
      simp at hd2
      omega
    simp only [dayNumber, h11]
    dsimp only
    omega
  · have hlt := dayNumber_lt_of_monthIndex_lt d ⟨d.year, 11, 31⟩ h
      (by simp [CivilDate.isValid, daysInMonth])
      (by unfold monthIndex; dsimp only; omega)
    omega

theorem isValid_endOfYear (d : CivilDate) : (endOfYear d).isValid = true := by
  simp [CivilDate.isValid, endOfYear, daysInMonth]

theorem isValid_startOfYear (d : CivilDate) : (startOfYear d).isValid = true := by
  simp [CivilDate.isValid, startOfYear, daysInMonth]

theorem year_le_of_dayNumber_le (d1 d2 : CivilDate)
    (h1 : d1.isValid = true) (h2 : d2.isValid = true)
    (h : dayNumber d1 ≤ dayNumber d2) : d1.year ≤ d2.year := by
  by_contra hgt
  have hm : monthIndex d2 < monthIndex d1 := by
    simp only [CivilDate.isValid, Bool.and_eq_true, decide_eq_true_eq] at h1 h2
    unfold monthIndex
    omega
  have := dayNumber_lt_of_monthIndex_lt d2 d1 h2 h1 hm
  omega

theorem dayNumber_startOfYear_succ (y : Int) :
    dayNumber ⟨y + 1, 0, 1⟩ = dayNumber ⟨y, 11, 31⟩ + 1 := by
  have hy := leapsBefore_succ y
  by_cases hl : isLeap y = true <;>
    simp only [dayNumber] <;> dsimp only <;>
      simp [monthTable, hl] at hy ⊢ <;> omega

theorem dayNumber_startOfYear_mono (y1 y2 : Int) (h : y1 ≤ y2) :
    dayNumber ⟨y1, 0, 1⟩ ≤ dayNumber ⟨y2, 0, 1⟩ := by
  have e1 : dayNumber ⟨y1, 0, 1⟩ = monthStartNum (12 * y1) := by
    unfold monthStartNum
    have h1 : 12 * y1 / 12 = y1 := by omega
    have h2 : 12 * y1 % 12 = 0 := by omega
    rw [h1, h2]
  have e2 : dayNumber ⟨y2, 0, 1⟩ = monthStartNum (12 * y2) := by
    unfold monthStartNum
    have h1 : 12 * y2 / 12 = y2 := by omega
    have h2 : 12 * y2 % 12 = 0 := by omega
    rw [h1, h2]
  rw [e1, e2]
  exact monthStartNum_le _ _ (by omega)

theorem dayNumber_endOfYear_eq (y : Int) :
    dayNumber ⟨y, 11, 31⟩ = dayNumber ⟨y, 0, 1⟩ + daysInYear y - 1 := by
  by_cases hl : isLeap y = true <;>
    simp [dayNumber, daysInYear, monthTable, hl] <;> omega

theorem weeksInYear_bounds (y : Int) :
    51 ≤ weeksInYear y ∧ weeksInYear y ≤ 53 := by
  have h1 := dow_lt ⟨y, 0, 1⟩
  have h2 := dow_lt ⟨y + 1, 0, 1⟩
  unfold weeksInYear firstWeekOffset daysInYear
  split <;> omega

theorem weekOfYear_jan1 (y : Int) : weekOfYear ⟨y, 0, 1⟩ = 1 := by
  have h1 := dow_lt ⟨y, 0, 1⟩
  have hwk := weeksInYear_bounds y
  unfold weekOfYear dayOfYear firstWeekOffset
  dsimp only
  have he : (dayNumber ⟨y, 0, 1⟩ - dayNumber ⟨y, 0, 1⟩ + 1 -
      -dow ⟨y, 0, 1⟩ - 1) / 7 + 1 = 1 := by omega
  rw [he]
  rw [if_neg (by omega), if_neg (by omega)]

theorem weekOfYear_eq_of_same_week (d1 d2 : CivilDate)
    (hy : d1.year = d2.year)
    (hw : (dayNumber d1 + 6) / 7 = (dayNumber d2 + 6) / 7) :
    weekOfYear d1 = weekOfYear d2 := by
  unfold weekOfYear dayOfYear firstWeekOffset dow
  rw [hy]
  have he : (dayNumber d1 - dayNumber ⟨d2.year, 0, 1⟩ + 1 -
        -((dayNumber ⟨d2.year, 0, 1⟩ + 6) % 7) - 1) / 7 =
      (dayNumber d2 - dayNumber ⟨d2.year, 0, 1⟩ + 1 -
        -((dayNumber ⟨d2.year, 0, 1⟩ + 6) % 7) - 1) / 7 := by
    omega
  rw [he]

theorem dayNumber_inj (d1 d2 : CivilDate) (h1 : d1.isValid = true)
    (h2 : d2.isValid = true) (h : dayNumber d1 = dayNumber d2) : d1 = d2 := by
  have hmi : monthIndex d1 = monthIndex d2 := by
    by_contra hne
    rcases lt_or_gt_of_ne hne with hlt | hlt
    · have := dayNumber_lt_of_monthIndex_lt d1 d2 h1 h2 hlt; omega
    · have := dayNumber_lt_of_monthIndex_lt d2 d1 h2 h1 hlt; omega
  have e1 := dayNumber_decomp d1 h1
  have e2 := dayNumber_decomp d2 h2
  simp only [CivilDate.isValid, Bool.and_eq_true, decide_eq_true_eq] at h1 h2
  have hy : d1.year = d2.year := by unfold monthIndex at hmi; omega
  have hm : d1.month = d2.month := by unfold monthIndex at hmi; omega
  have hd : d1.day = d2.day := by rw [hmi] at e1; omega
  cases d1; cases d2
  simp_all

theorem dow_addDays_multiple (d : CivilDate) (k : Int)
    (h : d.isValid = true) : dow (addDays d (7 * k)) = dow d := by
  rw [dow_addDays d (7 * k) h]
  unfold dow
  omega

theorem dayNumber_startOfWeek (d : CivilDate) (h : d.isValid = true) :
    dayNumber (startOfWeek d) = dayNumber d - dow d ∧
    (startOfWeek d).isValid = true := by
  unfold startOfWeek
  exact ⟨by rw [dayNumber_addDays d _ h]; ring, isValid_addDays d _ h⟩

theorem weekSetter_advance (d : CivilDate) (delta : Int)
    (h : d.isValid = true) (hpos : 1 ≤ delta) :
    dayNumber d < dayNumber (startOfWeek (addDays d (delta * 7))) ∧
    (startOfWeek (addDays d (delta * 7))).isValid = true := by
  have hv := isValid_addDays d (delta * 7) h
  have hd := dayNumber_addDays d (delta * 7) h
  obtain ⟨hw, hwv⟩ := dayNumber_startOfWeek (addDays d (delta * 7)) hv
  have hdow := dow_lt (addDays d (delta * 7))
  exact ⟨by omega, hwv⟩

theorem dayNumber_day_one (d : CivilDate) :
    dayNumber ⟨d.year, d.month, 1⟩ = dayNumber d - d.day + 1 := by
  simp only [dayNumber]
  omega

theorem isValid_day_one (d : CivilDate) (h : d.isValid = true) :
    (⟨d.year, d.month, 1⟩ : CivilDate).isValid = true := by
  simp only [CivilDate.isValid, Bool.and_eq_true, decide_eq_true_eq] at h ⊢
  try dsimp only
  have := daysInMonth_bounds d.year d.month
  refine ⟨⟨⟨h.1.1.1, h.1.1.2⟩, by omega⟩, by omega⟩

/-- Advance of a within-range jump of Calendar.nextPeriod: jumping to a
mapped unit strictly above the current field value and snapping to the
start of its period lands strictly after the date. -/
theorem periodUnitSet_advance (c : Calendar) (d : CivilDate) (u : Int)
    (hv : d.isValid = true)
    (hwf : ∀ v ∈ c.units, v = -1 ∨
      (Calendar.low c.measure ≤ v ∧ v ≤ Calendar.high c.measure))
    (hmem : u ∈ c.units.map (fun v =>
      if v = -1 then c.periodUnit (endOfUnit (Calendar.range c.measure) d)
      else v))
    (hgt : c.periodUnit d < u) :
    dayNumber d <
      dayNumber (startOfUnit (Calendar.period c.measure) (c.periodUnitSet d u)) ∧
    (startOfUnit (Calendar.period c.measure) (c.periodUnitSet d u)).isValid
      = true := by
  cases hme : c.measure with
  | daysOfWeek =>
    simp only [Calendar.periodUnit, Calendar.periodUnitSet, hme,
      Calendar.period, startOfUnit, setDow] at hgt ⊢
    exact ⟨by rw [dayNumber_addDays d _ hv]; omega, isValid_addDays d _ hv⟩
  | daysOfMonth =>
    simp only [Calendar.periodUnit, Calendar.periodUnitSet, hme,
      Calendar.period, startOfUnit, setDayOfMonth] at hgt ⊢
    have hv1 := isValid_day_one d hv
    constructor
    · rw [dayNumber_addDays _ _ hv1, dayNumber_day_one]
      omega
    · exact isValid_addDays _ _ hv1
  | weeksOfMonth =>
    simp only [Calendar.periodUnit, Calendar.periodUnitSet, hme,
      Calendar.period, startOfUnit, setMonthWeek] at hgt ⊢
    have := weekSetter_advance d (u - monthWeek d) hv (by omega)
    simpa using this
  | weeksOfMonthByDay =>
    simp only [Calendar.periodUnit, Calendar.periodUnitSet, hme,
      Calendar.period, startOfUnit, setMonthWeekByDay] at hgt ⊢
    have := weekSetter_advance d (u - monthWeekByDay d) hv (by omega)
    simpa using this
  | weeksOfYear =>
    simp only [Calendar.periodUnit, Calendar.periodUnitSet, hme,
      Calendar.period, startOfUnit, setWeek] at hgt ⊢
    have := weekSetter_advance d (u - weekOfYear d) hv (by omega)
    simpa using this
  | monthsOfYear =>
    simp only [Calendar.periodUnit, Calendar.periodUnitSet, hme,
      Calendar.period, Calendar.range, startOfUnit, setMonth,
      startOfMonth, endOfUnit, endOfYear] at hgt hmem ⊢
    have hu11 : 0 ≤ u ∧ u ≤ 11 := by
      simp only [hme, Calendar.low, Calendar.high] at hwf
      rcases List.mem_map.mp hmem with ⟨v, hvmem, hveq⟩
      rcases hwf v hvmem with hv1 | hv1
      · rw [if_pos hv1] at hveq
        try simp only [Calendar.periodUnit, hme] at hveq
        try dsimp only at hveq
        omega
      · rw [if_neg (by omega)] at hveq
        omega
    have hvd : d.isValid = true := hv
    simp only [CivilDate.isValid, Bool.and_eq_true, decide_eq_true_eq] at hvd
    have hval2 : (⟨d.year, u, 1⟩ : CivilDate).isValid = true := by
      simp only [CivilDate.isValid, Bool.and_eq_true, decide_eq_true_eq]
      try dsimp only
      have := daysInMonth_bounds d.year u
      refine ⟨⟨⟨by omega, by omega⟩, by omega⟩, by omega⟩
    constructor
    · exact dayNumber_lt_of_monthIndex_lt d ⟨d.year, u, 1⟩ hv hval2
        (by unfold monthIndex; dsimp only; omega)
    · exact hval2

/-- incrementRange moves strictly forward and preserves validity. -/
theorem incrementRange_advance (c : Calendar) (d : CivilDate)
    (hv : d.isValid = true) :
    dayNumber d < dayNumber (c.incrementRange d) ∧
    (c.incrementRange d).isValid = true := by
  unfold Calendar.incrementRange
  cases hr : Calendar.range c.measure with
  | day =>
    show dayNumber d < dayNumber (addDays d 1) ∧ (addDays d 1).isValid = true
    exact ⟨by rw [dayNumber_addDays d 1 hv]; omega, isValid_addDays d 1 hv⟩
  | week =>
    show dayNumber d < dayNumber (startOfWeek (addDays d 7)) ∧
      (startOfWeek (addDays d 7)).isValid = true
    have hv7 := isValid_addDays d 7 hv
    have hd7 := dayNumber_addDays d 7 hv
    obtain ⟨hw, hwv⟩ := dayNumber_startOfWeek (addDays d 7) hv7
    have hdow := dow_lt (addDays d 7)
    exact ⟨by omega, hwv⟩
  | month =>
    show dayNumber d < dayNumber (startOfMonth (addMonths d 1)) ∧
      (startOfMonth (addMonths d 1)).isValid = true
    have hvm := isValid_addMonths d 1 hv
    have hv1 : (startOfMonth (addMonths d 1)).isValid = true :=
      isValid_day_one _ hvm
    refine ⟨dayNumber_lt_of_monthIndex_lt d (startOfMonth (addMonths d 1))
      hv hv1 ?_, hv1⟩
    have hmi := monthIndex_addMonths d 1
    unfold startOfMonth monthIndex at hmi ⊢
    dsimp only
    omega
  | year =>
    show dayNumber d < dayNumber (startOfYear (addYears d 1)) ∧
      (startOfYear (addYears d 1)).isValid = true
    have hvm := isValid_addMonths d 12 hv
    have hmi := monthIndex_addMonths d 12
    have hv1 : (startOfYear (addYears d 1)).isValid = true :=
      isValid_startOfYear _
    refine ⟨dayNumber_lt_of_monthIndex_lt d (startOfYear (addYears d 1))
      hv hv1 ?_, hv1⟩
    have h2 : addYears d 1 = addMonths d 12 := by
      unfold addYears
      norm_num
    simp only [CivilDate.isValid, Bool.and_eq_true, decide_eq_true_eq] at hv hvm
    unfold startOfYear monthIndex at hmi ⊢
    rw [h2]
    dsimp only
    omega

theorem periodUnit_weeksOfYear (c : Calendar)
    (hme : c.measure = .weeksOfYear) (d : CivilDate) :
    c.periodUnit d = weekOfYear d := by
  unfold Calendar.periodUnit
  rw [hme]

theorem match_weeksOfYear_iff (c : Calendar)
    (hme : c.measure = .weeksOfYear) (d : CivilDate) :
    c.match d = true ↔ (weekOfYear d ∈ c.units ∨
      (c.units.head? = some (-1) ∧
        weekOfYear d = weekOfYear (endOfYear d))) := by
  unfold Calendar.match
  have hr : Calendar.range c.measure = .year := by rw [hme]; rfl
  rw [periodUnit_weeksOfYear c hme d, hr]
  rw [show endOfUnit .year d = endOfYear d from rfl]
  rw [periodUnit_weeksOfYear c hme (endOfYear d)]
  by_cases hc : c.units.contains (weekOfYear d) = true
  · simp only [hc, if_true, true_iff]
    left
    simpa using hc
  · simp only [hc, if_false, Bool.false_eq_true]
    have hnm : ¬ weekOfYear d ∈ c.units := by
      intro hmem
      exact hc (by simpa using hmem)
    split
    · rename_i hcond
      simp only [Bool.and_eq_true, beq_iff_eq] at hcond
      simp [hcond, hnm]
    · rename_i hcond
      simp only [Bool.and_eq_true, beq_iff_eq, not_and] at hcond
      constructor
      · intro h
        simp at h
      · intro h
        rcases h with h | ⟨ha, hb⟩
        · exact absurd h hnm
        · exact absurd hb (hcond ha)

/-- The weeksOfYear fallthrough of nextPeriod (jump to the start of
the week containing Dec 31) lands strictly after any date s that the
rule matches, provided the current cursor is at or after s and either
the day after the cursor or the cursor itself fails to match (which is
how the search loop ever reaches this branch). -/
theorem weeksOfYear_special_advance (c : Calendar)
    (hme : c.measure = .weeksOfYear)
    (s cur : CivilDate) (hs : s.isValid = true) (hcur : cur.isValid = true)
    (hge : dayNumber s ≤ dayNumber cur)
    (hmatchS : c.match s = true)
    (hH : c.match (addDays cur 1) = false ∨ c.match cur = false)
    (h1 : c.units.contains 1 = true) :
    dayNumber s < dayNumber (startOfWeek (endOfYear cur)) ∧
    (startOfWeek (endOfYear cur)).isValid = true := by
  have hvE := isValid_endOfYear cur
  obtain ⟨hsw, hswv⟩ := dayNumber_startOfWeek (endOfYear cur) hvE
  refine ⟨?_, hswv⟩
  by_contra hnot
  push_neg at hnot
  have hdowE := dow_lt (endOfYear cur)
  have hdowEeq : dow (endOfYear cur) = (dayNumber (endOfYear cur) + 6) % 7 := rfl
  have hcurE := dayNumber_le_endOfYear cur hcur
  have hyear : s.year = cur.year := by
    have hy1 : s.year ≤ cur.year := year_le_of_dayNumber_le s cur hs hcur hge
    by_contra hne
    have hy2 : s.year + 1 ≤ cur.year := by omega
    have ha := dayNumber_le_endOfYear s hs
    have hb : dayNumber (endOfYear s) =
        dayNumber ⟨s.year, 0, 1⟩ + daysInYear s.year - 1 :=
      dayNumber_endOfYear_eq s.year
    have hc : dayNumber ⟨s.year + 1, 0, 1⟩ = dayNumber ⟨s.year, 11, 31⟩ + 1 :=
      dayNumber_startOfYear_succ s.year
    have hd := dayNumber_startOfYear_mono (s.year + 1) cur.year hy2
    have he : dayNumber (endOfYear cur) =
        dayNumber ⟨cur.year, 0, 1⟩ + daysInYear cur.year - 1 :=
      dayNumber_endOfYear_eq cur.year
    have hdy1 : 365 ≤ daysInYear cur.year := by unfold daysInYear; split <;> omega
    have hEs : dayNumber (endOfYear s) = dayNumber ⟨s.year, 11, 31⟩ := rfl
    omega
  have hEsE : endOfYear s = endOfYear cur := by
    unfold endOfYear
    rw [hyear]
  have hgroupS : (dayNumber s + 6) / 7 = (dayNumber (endOfYear cur) + 6) / 7 := by
    omega
  have hgroupC : (dayNumber cur + 6) / 7 =
      (dayNumber (endOfYear cur) + 6) / 7 := by
    omega
  have hyE : (endOfYear cur).year = cur.year := rfl
  have hwSC : weekOfYear s = weekOfYear cur :=
    weekOfYear_eq_of_same_week s cur hyear (by omega)
  have hmS := (match_weeksOfYear_iff c hme s).mp hmatchS
  have hmc : c.match cur = true := by
    rw [match_weeksOfYear_iff c hme cur]
    rcases hmS with hin | ⟨hhead, heq⟩
    · left
      rw [← hwSC]
      exact hin
    · right
      refine ⟨hhead, ?_⟩
      rw [← hwSC, ← hEsE]
      exact heq
  have hmnd : c.match (addDays cur 1) = true := by
    have hv1 := isValid_addDays cur 1 hcur
    have hd1 := dayNumber_addDays cur 1 hcur
    by_cases hEcase : dayNumber cur < dayNumber (endOfYear cur)
    · have hynd : (addDays cur 1).year = cur.year := by
        have hy1 : cur.year ≤ (addDays cur 1).year :=
          year_le_of_dayNumber_le cur (addDays cur 1) hcur hv1 (by omega)
        have hy2 : (addDays cur 1).year ≤ (endOfYear cur).year :=
          year_le_of_dayNumber_le (addDays cur 1) (endOfYear cur) hv1 hvE
            (by omega)
        rw [hyE] at hy2
        omega
      have hwnd : weekOfYear (addDays cur 1) = weekOfYear s :=
        weekOfYear_eq_of_same_week (addDays cur 1) s
          (by rw [hynd, hyear]) (by omega)
      have hEnd : endOfYear (addDays cur 1) = endOfYear cur := by
        unfold endOfYear
        rw [hynd]
      rw [match_weeksOfYear_iff c hme (addDays cur 1)]
      rcases hmS with hin | ⟨hhead, heq⟩
      · left
        rw [hwnd]
        exact hin
      · right
        refine ⟨hhead, ?_⟩
        rw [hwnd, hEnd, ← hEsE]
        exact heq
    · have hEeq : cur = endOfYear cur :=
        dayNumber_inj cur (endOfYear cur) hcur hvE (by omega)
      have hndJ : addDays cur 1 = ⟨cur.year + 1, 0, 1⟩ := by
        refine dayNumber_inj (addDays cur 1) ⟨cur.year + 1, 0, 1⟩ hv1
          (by simp [CivilDate.isValid, daysInMonth]) ?_
        rw [hd1, dayNumber_startOfYear_succ cur.year]
        have : dayNumber cur = dayNumber (⟨cur.year, 11, 31⟩ : CivilDate) := by
          rw [hEeq]
          rfl
        omega
      rw [match_weeksOfYear_iff c hme (addDays cur 1), hndJ,
        weekOfYear_jan1 (cur.year + 1)]
      left
      simpa using h1
  rcases hH with hH | hH
  · rw [hmnd] at hH
    cases hH
  · rw [hmc] at hH
    cases hH

/-- The range-walking loop of Calendar.next returns only dates strictly
after any rule-matched date s at or before the cursor. -/
theorem calendar_nextLoop_advance (c : Calendar)
    (hwf : ∀ v ∈ c.units, v = -1 ∨
      (Calendar.low c.measure ≤ v ∧ v ≤ Calendar.high c.measure))
    (s : CivilDate) (hs : s.isValid = true) (hmatchS : c.match s = true)
    (limit : CivilDate) :
    ∀ (fuel : Nat) (cur res : CivilDate),
      cur.isValid = true → dayNumber s ≤ dayNumber cur →
      (c.measure = .weeksOfYear →
        (c.match (addDays cur 1) = false ∨ c.match cur = false)) →
      Calendar.nextLoop c limit fuel cur = .ok res →
      dayNumber s < dayNumber res ∧ res.isValid = true := by
  intro fuel
  induction fuel with
  | zero =>
    intro cur res _ _ _ h
    simp [Calendar.nextLoop] at h
  | succ k ih =>
    intro cur res hcv hge hH h
    unfold Calendar.nextLoop at h
    cases hnp : c.nextPeriod cur with
    | some nd =>
      rw [hnp] at h
      simp only [Except.ok.injEq] at h
      subst h
      unfold Calendar.nextPeriod at hnp
      simp only at hnp
      cases hfind : (c.units.map (fun u =>
          if u = -1 then
            c.periodUnit (endOfUnit (Calendar.range c.measure) cur)
          else u)).find? (fun u => decide (c.periodUnit cur < u)) with
      | some u =>
        rw [hfind] at hnp
        simp only [Option.some.injEq] at hnp
        subst hnp
        have hgt : c.periodUnit cur < u := by
          have := List.find?_some hfind
          simpa using this
        have hmem := List.mem_of_find?_eq_some hfind
        have hadv := periodUnitSet_advance c cur u hcv hwf hmem hgt
        exact ⟨by omega, hadv.2⟩
      | none =>
        rw [hfind] at hnp
        simp only [Bool.and_eq_true, decide_eq_true_eq,
          Option.ite_none_right_eq_some, Option.some.injEq] at hnp
        obtain ⟨⟨hme, h1⟩, hnd⟩ := hnp
        subst hnd
        exact weeksOfYear_special_advance c hme s cur hs hcv hge
          hmatchS (hH hme) h1
    | none =>
      rw [hnp] at h
      simp only at h
      have hadv := incrementRange_advance c cur hcv
      by_cases hm2 : c.match (c.incrementRange cur) = true
      · rw [if_pos hm2] at h
        simp only [Except.ok.injEq] at h
        subst h
        exact ⟨by omega, hadv.2⟩
      · rw [if_neg hm2] at h
        split at h
        · simp at h
        · exact ih (c.incrementRange cur) res hadv.2 (by omega)
            (fun _ => Or.inr (by simpa using hm2)) h

/-- Calendar.next returns only dates strictly after any rule-matched
date s at or before the cursor. -/
theorem calendar_next_advance (c : Calendar)
    (hwf : ∀ v ∈ c.units, v = -1 ∨
      (Calendar.low c.measure ≤ v ∧ v ≤ Calendar.high c.measure))
    (s : CivilDate) (hs : s.isValid = true) (hmatchS : c.match s = true)
    (limit : CivilDate) (fuel : Nat) (cur res : CivilDate)
    (hcv : cur.isValid = true) (hge : dayNumber s ≤ dayNumber cur)
    (h : c.next fuel cur limit = .ok res) :
    dayNumber s < dayNumber res ∧ res.isValid = true := by
  unfold Calendar.next at h
  split at h
  · rename_i hlast
    refine calendar_nextLoop_advance c hwf s hs hmatchS limit fuel cur res
      hcv hge ?_ h
    intro hme
    exfalso
    unfold Calendar.isLastDayOfPeriod at hlast
    rw [if_neg (by rw [hme]; simp)] at hlast
    rw [if_neg (by rw [hme]; simp [Calendar.period])] at hlast
    simp at hlast
  · rename_i hlast
    simp only at h
    by_cases hm1 : c.match (addDays cur 1) = true
    · rw [if_pos hm1] at h
      simp only [Except.ok.injEq] at h
      subst h
      refine ⟨?_, isValid_addDays cur 1 hcv⟩
      rw [dayNumber_addDays cur 1 hcv]
      omega
    · rw [if_neg hm1] at h
      exact calendar_nextLoop_advance c hwf s hs hmatchS limit fuel cur res
        hcv hge (fun _ => Or.inl (by simpa using hm1)) h

/-- The earliest-date fold returns its seed or a member of the list. -/
theorem foldl_earliest_mem (l : List CivilDate) (b : CivilDate) :
    l.foldl (fun best c => if dayNumber c < dayNumber best then c else best) b
        = b ∨
      l.foldl (fun best c => if dayNumber c < dayNumber best then c else best) b
        ∈ l := by
  induction l generalizing b with
  | nil => left; rfl
  | cons x xs ih =>
    simp only [List.foldl_cons]
    by_cases h : dayNumber x < dayNumber b
    · rw [if_pos h]
      rcases ih x with h1 | h1
      · right; rw [h1]; exact List.mem_cons_self x xs
      · right; exact List.mem_cons_of_mem x h1
    · rw [if_neg h]
      rcases ih b with h1 | h1
      · left; exact h1
      · right; exact List.mem_cons_of_mem x h1

/-- Adding at least one unit of any interval measure strictly advances
the day number and preserves validity. -/
theorem addMeasure_advance (s : CivilDate) (hs : s.isValid = true)
    (m : Int) (hm : 1 ≤ m) (me : IntervalMeasure) :
    dayNumber s < dayNumber (addMeasure s m me) ∧
      (addMeasure s m me).isValid = true := by
  cases me with
  | days =>
    simp only [addMeasure]
    refine ⟨?_, isValid_addDays s m hs⟩
    rw [dayNumber_addDays s m hs]; omega
  | weeks =>
    simp only [addMeasure]
    refine ⟨?_, isValid_addDays s (7 * m) hs⟩
    rw [dayNumber_addDays s (7 * m) hs]; omega
  | months =>
    simp only [addMeasure]
    have hv := isValid_addMonths s m hs
    refine ⟨dayNumber_lt_of_monthIndex_lt s _ hs hv ?_, hv⟩
    rw [monthIndex_addMonths]; omega
  | years =>
    simp only [addMeasure, addYears]
    have hv := isValid_addMonths s (12 * m) hs
    refine ⟨dayNumber_lt_of_monthIndex_lt s _ hs hv ?_, hv⟩
    rw [monthIndex_addMonths]; omega

/-- From any cursor, Interval.next with positive units returns a date
strictly after the rule's anchor, and a valid one. -/
theorem interval_next_advance (iv : Interval) (hs : iv.start.isValid = true)
    (hu : ∀ u ∈ iv.units, 1 ≤ u) (current res : CivilDate)
    (h : iv.next current = .ok res) :
    dayNumber iv.start < dayNumber res ∧ res.isValid = true := by
  have hcand : ∀ d ∈ iv.units.map (fun u =>
      addMeasure iv.start
        (u * (Frac.floor ⟨(momentDiff iv.start current iv.measure).abs.num,
          (momentDiff iv.start current iv.measure).abs.den * u⟩ + 1))
        iv.measure),
      dayNumber iv.start < dayNumber d ∧ d.isValid = true := by
    intro d hd
    rw [List.mem_map] at hd
    obtain ⟨u, hum, hdef⟩ := hd
    subst hdef
    have hu1 := hu u hum
    apply addMeasure_advance iv.start hs
    have hfl : 0 ≤ Frac.floor ⟨(momentDiff iv.start current iv.measure).abs.num,
        (momentDiff iv.start current iv.measure).abs.den * u⟩ := by
      unfold Frac.floor Frac.abs
      dsimp only
      exact Int.ediv_nonneg (abs_nonneg _)
        (mul_nonneg (abs_nonneg _) (by omega))
    nlinarith
  unfold Interval.next at h
  simp only at h
  split at h
  · simp at h
  · rename_i x xs heq
    simp only [Except.ok.injEq] at h
    subst h
    have hmem : ((x :: xs).foldl
        (fun best c => if dayNumber c < dayNumber best then c else best) x)
          ∈ x :: xs := by
      rcases foldl_earliest_mem (x :: xs) x with h1 | h1
      · rw [h1]; exact List.mem_cons_self x xs
      · exact h1
    rw [← heq] at hmem ⊢
    exact hcand _ hmem

/-- Well-formedness of a rule relative to the recurrence start date:
interval rules are anchored at the start with positive units, calendar
rules have all units in the measure domain or the last sentinel. -/
def Rule.anchoredWf (r : Rule) (s : CivilDate) : Prop :=
  match r with
  | .interval iv => iv.start = s ∧ ∀ u ∈ iv.units, 1 ≤ u
  | .calendar c => ∀ v ∈ c.units, v = -1 ∨
      (Calendar.low c.measure ≤ v ∧ v ≤ Calendar.high c.measure)

/-- Any rule that matches the date s, queried from a cursor at or after
s, can only return a date strictly after s. -/
theorem rule_next_advance (r : Rule) (s : CivilDate) (hwf : r.anchoredWf s)
    (hs : s.isValid = true) (hmatch : r.match s = true)
    (fuel : Nat) (cur limit res : CivilDate) (hcv : cur.isValid = true)
    (hge : dayNumber s ≤ dayNumber cur)
    (h : r.next fuel cur limit = .ok res) :
    dayNumber s < dayNumber res ∧ res.isValid = true := by
  cases r with
  | interval iv =>
    obtain ⟨hanch, hu⟩ := hwf
    simp only [Rule.next] at h
    have hres := interval_next_advance iv (by rw [hanch]; exact hs) hu cur res h
    rw [hanch] at hres
    exact hres
  | calendar c =>
    simp only [Rule.next] at h
    simp only [Rule.match] at hmatch
    exact calendar_next_advance c hwf s hs hmatch limit fuel cur res hcv hge h

/-- Membership through the ascending date insertion. -/
theorem mem_insertAscDate (a x : CivilDate) (l : List CivilDate) :
    a ∈ insertAscDate x l ↔ a = x ∨ a ∈ l := by
  induction l with
  | nil => simp [insertAscDate]
  | cons y ys ih =>
    unfold insertAscDate
    split
    · simp
    · simp only [List.mem_cons, ih]
      tauto

/-- The day sort of findNextMatch permutes its input: membership is
preserved. -/
theorem mem_sortByDay (a : CivilDate) (l : List CivilDate) :
    a ∈ sortByDay l ↔ a ∈ l := by
  induction l with
  | nil => simp [sortByDay]
  | cons x xs ih =>
    show a ∈ insertAscDate x (sortByDay xs) ↔ _
    rw [mem_insertAscDate, ih]
    simp

/-- The last element (with default) of a non-empty list is a member. -/
theorem getLastD_mem_cons : ∀ (t : List CivilDate) (hd d : CivilDate),
    (hd :: t).getLastD d ∈ hd :: t := by
  intro t
  induction t with
  | nil => intro hd d; simp [List.getLastD]
  | cons y ys ih =>
    intro hd d
    rw [List.getLastD_cons]
    exact List.mem_cons_of_mem hd (ih y hd)

/-- The candidate-convergence loop of findNextMatch only returns dates
strictly after a start date that every rule matches, provided the loop
cursor is strictly past the start (its first action is to back up one
day). -/
theorem findLoop_advance (r : Recur) (s : CivilDate) (hs : s.isValid = true)
    (hwf : ∀ rule ∈ r.rules, rule.anchoredWf s ∧ rule.match s = true)
    (limit : CivilDate) (searchFuel : Nat) :
    ∀ (convFuel : Nat) (x res : CivilDate),
      x.isValid = true → dayNumber s < dayNumber x →
      Recur.findLoop r limit searchFuel convFuel x = .ok res →
      dayNumber s < dayNumber res ∧ res.isValid = true := by
  intro convFuel
  induction convFuel with
  | zero =>
    intro x res _ _ h
    simp [Recur.findLoop] at h
  | succ k ih =>
    intro x res hxv hlt h
    unfold Recur.findLoop at h
    simp only at h
    cases hm : mapExcept (fun rule => rule.next searchFuel (addDays x (-1)) limit)
        r.rules with
    | error e => rw [hm] at h; simp at h
    | ok cands =>
      rw [hm] at h
      simp only at h
      have hx1v : (addDays x (-1)).isValid = true := isValid_addDays x (-1) hxv
      have hx1ge : dayNumber s ≤ dayNumber (addDays x (-1)) := by
        rw [dayNumber_addDays x (-1) hxv]; omega
      have hcand : ∀ c ∈ cands, dayNumber s < dayNumber c ∧ c.isValid = true := by
        intro c hc
        rcases mapExcept_ok_forall _ r.rules cands hm c hc with ⟨rule, hrm, hrn⟩
        exact rule_next_advance rule s (hwf rule hrm).1 hs (hwf rule hrm).2
          searchFuel (addDays x (-1)) limit c hx1v hx1ge hrn
      cases hsort : sortByDay cands with
      | nil => rw [hsort] at h; simp at h
      | cons hd t =>
        rw [hsort] at h
        simp only at h
        have hmemD : (hd :: t).getLastD hd ∈ hd :: t := getLastD_mem_cons t hd hd
        have hmemC : (hd :: t).getLastD hd ∈ cands := by
          rw [← mem_sortByDay, hsort]
          exact hmemD
        have hD := hcand _ hmemC
        by_cases hconv : (dayNumber ((hd :: t).getLastD hd) == dayNumber hd) = true
        · rw [if_pos hconv] at h
          simp only [Except.ok.injEq] at h
          subst h
          exact hD
        · rw [if_neg hconv] at h
          exact ih _ res hD.2 hD.1 h

/-- mapExcept only returns an empty list on an empty input. -/
theorem mapExcept_ok_nil {α β ε : Type} (f : α → Except ε β) (l : List α)
    (h : mapExcept f l = .ok []) : l = [] := by
  cases l with
  | nil => rfl
  | cons x xs =>
    unfold mapExcept at h
    cases hfx : f x with
    | error e => rw [hfx] at h; simp [Bind.bind, Except.bind] at h
    | ok b =>
      rw [hfx] at h
      simp only [Bind.bind, Except.bind] at h
      cases hrest : mapExcept f xs with
      | error e => rw [hrest] at h; simp at h
      | ok bs => rw [hrest] at h; simp at h

/-- With at least one rule configured, the candidate array of
findNextMatch is never empty, so the TypeError branch is unreachable. -/
theorem findLoop_ne_typeErr (r : Recur) (hne : r.rules ≠ [])
    (limit : CivilDate) (searchFuel : Nat) :
    ∀ (convFuel : Nat) (x : CivilDate),
      Recur.findLoop r limit searchFuel convFuel x ≠ .error .typeErr := by
  intro convFuel
  induction convFuel with
  | zero =>
    intro x h
    simp [Recur.findLoop] at h
  | succ k ih =>
    intro x h
    unfold Recur.findLoop at h
    simp only at h
    cases hm : mapExcept (fun rule => rule.next searchFuel (addDays x (-1)) limit)
        r.rules with
    | error e => rw [hm] at h; simp at h
    | ok cands =>
      rw [hm] at h
      simp only at h
      cases hsort : sortByDay cands with
      | nil =>
        have hc : cands = [] := by
          cases cands with
          | nil => rfl
          | cons c cs =>
            have hmem : c ∈ sortByDay (c :: cs) :=
              (mem_sortByDay c (c :: cs)).mpr (List.mem_cons_self c cs)
            rw [hsort] at hmem
            simp at hmem
        subst hc
        exact hne (mapExcept_ok_nil _ _ hm)
      | cons hd t =>
        rw [hsort] at h
        simp only at h
        by_cases hconv : (dayNumber ((hd :: t).getLastD hd) == dayNumber hd) = true
        · rw [if_pos hconv] at h; simp at h
        · rw [if_neg hconv] at h; exact ih _ h

/-- findNextMatch queried from any cursor at or after a start date that
every rule matches returns a strictly later, valid date. -/
theorem findNextMatch_advance (r : Recur) (s : CivilDate)
    (hs : s.isValid = true)
    (hwf : ∀ rule ∈ r.rules, rule.anchoredWf s ∧ rule.match s = true)
    (convFuel searchFuel : Nat) (cur res : CivilDate)
    (hcv : cur.isValid = true) (hge : dayNumber s ≤ dayNumber cur)
    (h : r.findNextMatch convFuel searchFuel cur = .ok res) :
    dayNumber s < dayNumber res ∧ res.isValid = true := by
  unfold Recur.findNextMatch at h
  simp only at h
  refine findLoop_advance r s hs hwf _ searchFuel convFuel (addDays cur 1) res
    (isValid_addDays cur 1 hcv) ?_ h
  rw [dayNumber_addDays cur 1 hcv]; omega

/-- findNextMatch never raises the TypeError when rules are present. -/
theorem findNextMatch_ne_typeErr (r : Recur) (hne : r.rules ≠ [])
    (convFuel searchFuel : Nat) (cur : CivilDate) :
    r.findNextMatch convFuel searchFuel cur ≠ .error .typeErr := by
  unfold Recur.findNextMatch
  simp only
  exact findLoop_ne_typeErr r hne _ searchFuel convFuel (addDays cur 1)

/-- The yield loop started at a start date that every rule matches, with
the end bound equal to that same date, yields nothing: the first found
match lies strictly past the end bound (or the search is exhausted). -/
theorem iterLoop_equal_bounds (r : Recur) (s : CivilDate)
    (hs : s.isValid = true)
    (hwf : ∀ rule ∈ r.rules, rule.anchoredWf s ∧ rule.match s = true)
    (hne : r.rules ≠ []) (hend : r.endDate = some s)
    (convFuel searchFuel yieldFuel : Nat) :
    Recur.iterLoop r convFuel searchFuel (yieldFuel + 1) s = .ok [] := by
  unfold Recur.iterLoop
  cases hf : r.findNextMatch convFuel searchFuel s with
  | error e =>
    cases e with
    | exhausted => simp
    | typeErr => exact absurd hf (findNextMatch_ne_typeErr r hne convFuel searchFuel s)
  | ok nd =>
    have hadv := findNextMatch_advance r s hs hwf convFuel searchFuel s nd hs
      (le_refl _) hf
    simp only
    rw [hend]
    rw [if_pos (by simpa using hadv.1)]

/-- The full forward enumeration on a recurrence whose start and end
bounds are equal: the origin is yielded by the matchAllRules check and
the yield loop then stops at once. -/
theorem iterate_equal_bounds (r : Recur) (s : CivilDate)
    (hs : s.isValid = true) (hstart : r.start = some s)
    (hend : r.endDate = some s) (hfrom : r.fromDate = none)
    (hne : r.rules ≠ [])
    (hwf : ∀ rule ∈ r.rules, rule.anchoredWf s ∧ rule.match s = true)
    (convFuel searchFuel yieldFuel : Nat) :
    Recur.iterate r (yieldFuel + 1) convFuel searchFuel = .ok [s] := by
  have hall : r.matchAllRules s = true := by
    unfold Recur.matchAllRules
    rw [List.all_eq_true]
    intro rule hr
    exact (hwf rule hr).2
  unfold Recur.iterate
  rw [hfrom, hstart, hend]
  simp only
  rw [if_neg (by simp)]
  rw [iterLoop_equal_bounds r s hs hwf hne hend convFuel searchFuel yieldFuel]
  simp [Bind.bind, Except.bind, hall, pure, Except.pure]

/-- C5 (amended): for every recurrence whose start and end dates are
both set and equal to a valid date s, with the transient from date
unset and a non-empty rule set whose rules are anchored at s and all
match s, all() succeeds and yields exactly one date, the shared
start/end value.  (The original claim, with no condition on the rules,
is refuted by all_equal_bounds_empty_counterexample: when some rule
does not match the shared date, all() yields the empty list.) -/
theorem all_equal_bounds_yields_start (r : Recur) (s : CivilDate)
    (hs : s.isValid = true) (hstart : r.start = some s)
    (hend : r.endDate = some s) (hfrom : r.fromDate = none)
    (hne : r.rules ≠ [])
    (hwf : ∀ rule ∈ r.rules, rule.anchoredWf s ∧ rule.match s = true)
    (convFuel searchFuel yieldFuel : Nat) :
    Recur.all r (yieldFuel + 1) convFuel searchFuel = .ok [s] := by
  unfold Recur.all
  rw [hend]
  exact iterate_equal_bounds r s hs hstart hend hfrom hne hwf
    convFuel searchFuel yieldFuel

/-- C5 counterexample to the literal claim: start and end are both set
to 2014-01-02 and a daysOfMonth [1] calendar rule is configured; the
shared date matches no rule, so all() returns the empty list, not
exactly one date. -/
theorem all_equal_bounds_empty_counterexample :
    Recur.all ⟨some ⟨2014, 0, 2⟩, some ⟨2014, 0, 2⟩, none,
      [.calendar ⟨[1], .daysOfMonth⟩], [], 1000⟩ 3 3 3 = .ok [] := by
  decide

/-- Witness for C5: the every-one-day recurrence over the single day
2014-01-01 yields exactly that date. -/
theorem all_equal_bounds_yields_start_witness :
    Recur.all ⟨some ⟨2014, 0, 1⟩, some ⟨2014, 0, 1⟩, none,
      [.interval ⟨[1], .days, ⟨2014, 0, 1⟩⟩], [], 1000⟩ 3 3 3
      = .ok [⟨2014, 0, 1⟩] :=
  all_equal_bounds_yields_start _ ⟨2014, 0, 1⟩ (by decide) rfl rfl rfl
    (by decide)
    (by
      intro rule hr
      simp only [List.mem_singleton] at hr
      subst hr
      exact ⟨⟨rfl, by decide⟩, by decide⟩)
    3 3 2

end MomentRecur
